import Mathlib

/-!
Verification of the investment-tracker portfolio engine.

The development shallowly embeds the reconciliation and valuation core of the
tracker: transaction replay into positions under weighted-average cost
(`apply_transactions_to_positions`), realized profit/loss
(`compute_realized_profit_loss`), cash invested (`compute_total_cash_invested`),
tolerant numeric parsing (`to_float`), bond valuation (`valuePosition`), fuzzy
symbol resolution (`resolve_symbol_yahoo`) and the suffix-probing quote fetcher
(`stooq_get_quotes`).

Modelling conventions, chosen once and used throughout:
* Python floats are modelled as exact rationals (`ℚ`); the properties checked
  are the arithmetical ones the code states, not rounding behaviour.
* Python dicts (which preserve insertion order and overwrite in place) are
  modelled as association lists with `updateAssoc` / `lookupAssoc`.
* Python sets appear only where the code asks for their size and sole element;
  they are modelled as duplicate-free lists built in insertion order.
* Transaction dates are modelled by their parsed sort keys (a natural number):
  the source's `_aware_datetime` is a total function from date strings to
  timestamps (unparseable dates map to the minimum timestamp), and the replay
  functions only ever sort by it, with Python's stable `sorted`.  `sortByDate`
  below is a stable insertion sort, extensionally equal to Python's sort.
* Network clients are given their already-fetched payloads as arguments; all
  exceptions in the sources are caught locally, which the total Lean functions
  model by construction.
-/

namespace InvestmentTracker

/-! ## Python string primitives

`str.strip`, `str.lower`, `str.upper` and `str.replace` as the sources use
them.  Case mapping is the ASCII one; every symbol, broker and currency string
the tracker manipulates is ASCII. -/

/-- The whitespace characters Python's `str.strip()` removes (ASCII range). -/
def isPySpace (c : Char) : Bool :=
  decide (c.toNat = 32 ∨ c.toNat = 9 ∨ c.toNat = 10 ∨ c.toNat = 13 ∨ c.toNat = 11 ∨ c.toNat = 12)

/-- ASCII lower-casing of one character, as Python's `str.lower` acts on ASCII. -/
def lowerChar (c : Char) : Char :=
  if 65 ≤ c.toNat ∧ c.toNat ≤ 90 then Char.ofNat (c.toNat + 32) else c

/-- ASCII upper-casing of one character, as Python's `str.upper` acts on ASCII. -/
def upperChar (c : Char) : Char :=
  if 97 ≤ c.toNat ∧ c.toNat ≤ 122 then Char.ofNat (c.toNat - 32) else c

/-- `str.strip()` on a character list: drop leading and trailing whitespace. -/
def stripList (l : List Char) : List Char :=
  List.rdropWhile isPySpace (List.dropWhile isPySpace l)

/-- `s.strip()`. -/
def pyStrip (s : String) : String := ⟨stripList s.data⟩

/-- `s.lower()` (ASCII). -/
def pyLower (s : String) : String := ⟨s.data.map lowerChar⟩

/-- `s.upper()` (ASCII). -/
def pyUpper (s : String) : String := ⟨s.data.map upperChar⟩

/-- `str.replace` on character lists: left-to-right, non-overlapping
replacement of every occurrence of `pat` by `rep`.  The sources only ever call
it with a non-empty `pat`; for `pat = []` this model returns the list
unchanged. -/
def replaceL (pat rep : List Char) : List Char → List Char
  | [] => []
  | c :: rest =>
    match pat with
    | [] => c :: rest
    | p :: ps =>
      if (p :: ps).isPrefixOf (c :: rest) then rep ++ replaceL pat rep (rest.drop ps.length)
      else c :: replaceL pat rep rest
termination_by l => l.length
decreasing_by
  · simp only [List.length_drop, List.length_cons]; omega
  · simp only [List.length_cons]; omega

/-- `s.replace(pat, rep)`. -/
def pyReplace (s pat rep : String) : String := ⟨replaceL pat.data rep.data s.data⟩

/-! ## Association lists standing in for Python dicts -/

/-- `d[k] = v` on an insertion-ordered dict: overwrite in place, else append. -/
def updateAssoc {α β : Type} [DecidableEq α] : List (α × β) → α → β → List (α × β)
  | [], k, v => [(k, v)]
  | (k', v') :: rest, k, v =>
    if k' = k then (k, v) :: rest else (k', v') :: updateAssoc rest k v

/-- `d.get(k)` on an insertion-ordered dict. -/
def lookupAssoc {α β : Type} [DecidableEq α] : List (α × β) → α → Option β
  | [], _ => none
  | (k', v') :: rest, k => if k' = k then some v' else lookupAssoc rest k

/-! ## The data model

`Pos` models the position dicts and `Tx` the canonical transaction dicts of
`helpers.py`.  String-valued fields that the code reads with `dict.get` and
tests for truthiness use `""` for an absent value; fields the replay never
touches (`manual_type`, `unmapped`) are not modelled. -/

structure Pos where
  symbol : String
  name : String
  ptype : String
  quantity : ℚ
  avg_buy_price : ℚ
  currency : String
  broker : String
deriving DecidableEq

structure Tx where
  symbol : String
  name : String
  quantity : ℚ
  price : ℚ
  currency : String
  broker : String
  date : ℕ
deriving DecidableEq

/-- The `_norm` helper of `apply_transactions_to_positions`:
`(value or "").strip().lower()`. -/
def norm_str (s : String) : String := pyLower (pyStrip s)

/-- The `_sym` helper: `(value or "").strip().upper()`. -/
def sym_str (s : String) : String := pyUpper (pyStrip s)

/-- `_norm(...) or "unknown"`, the broker normalization. -/
def normBroker (s : String) : String :=
  if norm_str s = "" then "unknown" else norm_str s

/-- The empty dict `{}` a transaction with no matching position starts from. -/
def emptyPos : Pos := ⟨"", "", "", 0, 0, "", ""⟩

/-- Python's binary `max` on numbers (`max(a, b)` returns `b` when `a ≤ b`);
equal to `Max.max` on `ℚ`, see `pyMax_eq_max`. -/
def pyMax (a b : ℚ) : ℚ := if a ≤ b then b else a

/-- Python's binary `min` on numbers; equal to `Min.min` on `ℚ`. -/
def pyMin (a b : ℚ) : ℚ := if a ≤ b then a else b

/-! ## Position ledger: `apply_transactions_to_positions` (helpers.py 234-303) -/

/-- The cost-basis arithmetic of the replay loop (helpers.py 276-298): given
the running quantity and average and one transaction's quantity and price,
return the floored new quantity `max(qty_old + qty_tx, 0)` and the new average
(buys reweight the average, sells keep it while quantity stays positive and
reset it to zero otherwise). -/
def updateCostBasis (qty_old avg_old qty_tx price : ℚ) : ℚ × ℚ :=
  let qty_new := qty_old + qty_tx
  let avg_new :=
    if 0 < qty_tx then
      if qty_new = 0 then 0 else (avg_old * qty_old + price * qty_tx) / qty_new
    else if 0 < qty_new then avg_old else 0
  (pyMax qty_new 0, avg_new)

/-- The position dict written back by one replay step (helpers.py 292-301),
with `current` the resolved prior position (possibly `emptyPos`), `broker` and
`symbol` the resolved key. -/
def applyTxToCurrent (current : Pos) (broker symbol : String) (tx : Tx) : Pos :=
  let r := updateCostBasis current.quantity current.avg_buy_price tx.quantity tx.price
  { symbol := symbol
    name := if current.name ≠ "" then current.name else if tx.name ≠ "" then tx.name else symbol
    ptype := if current.ptype ≠ "" then current.ptype else "equity"
    quantity := r.1
    avg_buy_price := r.2
    currency := if current.currency ≠ "" then current.currency else tx.currency
    broker := broker }

/-- One row of the `pos_index` construction (helpers.py 248-255): skip an
empty symbol, else key the row by its normalized `(broker, symbol)`. -/
def buildStep (idx : List ((String × String) × Pos)) (pos : Pos) :
    List ((String × String) × Pos) :=
  let broker := normBroker pos.broker
  let symbol := sym_str pos.symbol
  if symbol = "" then idx
  else updateAssoc idx (broker, symbol) { pos with broker := broker, symbol := symbol }

/-- The `pos_index` built from the prior positions (helpers.py 246-255). -/
def buildIndex (positions : List Pos) : List ((String × String) × Pos) :=
  positions.foldl buildStep []

/-- One `symbol_brokers.setdefault(symbol, set()).add(broker)` step; the set is
a duplicate-free list in insertion order. -/
def addBrokerSB (sb : List (String × List String)) (symbol broker : String) :
    List (String × List String) :=
  match lookupAssoc sb symbol with
  | none => sb ++ [(symbol, [broker])]
  | some bs => if broker ∈ bs then sb else updateAssoc sb symbol (bs ++ [broker])

/-- One row of the `symbol_brokers` construction (helpers.py 248-255). -/
def sbStep (sb : List (String × List String)) (pos : Pos) : List (String × List String) :=
  let broker := normBroker pos.broker
  let symbol := sym_str pos.symbol
  if symbol = "" then sb else addBrokerSB sb symbol broker

/-- The `symbol_brokers` map built from the prior positions (helpers.py
246-255).  It is built once, before the transaction loop, and never extended
during it. -/
def symbolBrokers (positions : List Pos) : List (String × List String) :=
  positions.foldl sbStep []

/-- One iteration of the replay loop (helpers.py 261-301): resolve the
transaction's `(broker, symbol)` key, falling back to the sole broker holding
the symbol in `sb` when the exact key is absent, then apply the cost-basis
update and write the position back. -/
def stepTx (sb : List (String × List String)) (idx : List ((String × String) × Pos))
    (tx : Tx) : List ((String × String) × Pos) :=
  let broker0 := normBroker tx.broker
  let symbol := sym_str tx.symbol
  if symbol = "" then idx
  else
    match lookupAssoc idx (broker0, symbol) with
    | some current => updateAssoc idx (broker0, symbol) (applyTxToCurrent current broker0 symbol tx)
    | none =>
      match (lookupAssoc sb symbol).getD [] with
      | [b] =>
        let current := (lookupAssoc idx (b, symbol)).getD emptyPos
        updateAssoc idx (b, symbol) (applyTxToCurrent current b symbol tx)
      | _ => updateAssoc idx (broker0, symbol) (applyTxToCurrent emptyPos broker0 symbol tx)

/-- Stable insertion of a transaction after every transaction dated no later. -/
def insertByDate (tx : Tx) : List Tx → List Tx
  | [] => [tx]
  | t :: ts => if t.date ≤ tx.date then t :: insertByDate tx ts else tx :: t :: ts

/-- `sorted(transactions, key=parsed date)`: a stable sort by the date key,
extensionally equal to Python's stable `sorted`. -/
def sortByDate (txs : List Tx) : List Tx :=
  txs.foldl (fun acc t => insertByDate t acc) []

/-- `apply_transactions_to_positions` (helpers.py 234-303): index the prior
positions, replay the date-sorted transactions, return the positions. -/
def apply_transactions_to_positions (positions : List Pos) (transactions : List Tx) :
    List Pos :=
  let idx := buildIndex positions
  let sb := symbolBrokers positions
  ((sortByDate transactions).foldl (stepTx sb) idx).map Prod.snd

/-! ## Realized P&L: `compute_realized_profit_loss` (helpers.py 306-349) -/

/-- The running state of the realized-P&L replay: the accumulated scalar and
the per-`(broker, symbol)` `{"qty": _, "avg": _}` map. -/
structure RState where
  realized : ℚ
  positions : List ((String × String) × (ℚ × ℚ))
deriving DecidableEq

/-- One iteration of the realized-P&L loop (helpers.py 321-347). -/
def realizedStep (st : RState) (tx : Tx) : RState :=
  let broker := normBroker tx.broker
  let symbol := sym_str tx.symbol
  if symbol = "" then st
  else
    let key := (broker, symbol)
    let cur := (lookupAssoc st.positions key).getD (0, 0)
    let qty_old := cur.1
    let avg_old := cur.2
    if 0 < tx.quantity then
      let total_cost := avg_old * qty_old + tx.price * tx.quantity
      let qty_new := qty_old + tx.quantity
      let avg_new := if qty_new = 0 then 0 else total_cost / qty_new
      { st with positions := updateAssoc st.positions key (qty_new, avg_new) }
    else if tx.quantity < 0 then
      let qty_sell := -tx.quantity
      let qty_used := pyMin qty_sell (pyMax qty_old 0)
      let qty_new0 := qty_old - qty_sell
      let qty_new := if qty_new0 < 0 then 0 else qty_new0
      { realized := st.realized + (tx.price - avg_old) * qty_used
        positions := updateAssoc st.positions key (qty_new, if 0 < qty_new then avg_old else 0) }
    else st

/-- `compute_realized_profit_loss` (helpers.py 306-349). -/
def compute_realized_profit_loss (transactions : List Tx) : ℚ :=
  ((sortByDate transactions).foldl realizedStep ⟨0, []⟩).realized

/-- The running quantity the realized-P&L state holds for a transaction's
resolved key (0 when the key is absent). -/
def rstQty (st : RState) (tx : Tx) : ℚ :=
  ((lookupAssoc st.positions (normBroker tx.broker, sym_str tx.symbol)).getD (0, 0)).1

/-- The running average cost the realized-P&L state holds for a transaction's
resolved key (0 when the key is absent). -/
def rstAvg (st : RState) (tx : Tx) : ℚ :=
  ((lookupAssoc st.positions (normBroker tx.broker, sym_str tx.symbol)).getD (0, 0)).2

/-! ## Cash invested: `compute_total_cash_invested` (helpers.py 352-379) -/

/-- The uppercase-symbol / lowercase-type normalization of the caller-supplied
asset-type map (helpers.py 357-363); rows with an empty symbol are skipped. -/
def normalizeAssetTypes (asset_types : List (String × String)) : List (String × String) :=
  asset_types.foldl
    (fun m st =>
      if st.1 = "" then m
      else updateAssoc m (pyUpper (pyStrip st.1)) (pyLower (pyStrip st.2)))
    []

/-- The per-transaction summand: `price × quantity`, or `price/100 × quantity`
for a symbol the normalized map classifies as `bond`. -/
def cashContribution (normalized : List (String × String)) (tx : Tx) : ℚ :=
  if (lookupAssoc normalized (pyUpper (pyStrip tx.symbol))).getD "" = "bond" then
    tx.price / 100 * tx.quantity
  else tx.price * tx.quantity

/-- One iteration of the `compute_total_cash_invested` loop (helpers.py
366-378): skip non-positive quantities and zero prices, then accumulate. -/
def cashStep (normalized : List (String × String)) (total : ℚ) (tx : Tx) : ℚ :=
  if tx.quantity ≤ 0 then total
  else if tx.price = 0 then total
  else total + cashContribution normalized tx

/-- `compute_total_cash_invested` (helpers.py 352-379). -/
def compute_total_cash_invested (transactions : List Tx)
    (asset_types : List (String × String)) : ℚ :=
  transactions.foldl (cashStep (normalizeAssetTypes asset_types)) 0

/-- Stated from the claim's words, for comparison with the source function:
the sum of `price × quantity` over exactly the transactions with positive
quantity and positive price, with `price/100 × quantity` for symbols the
supplied map classifies as bonds. -/
def cash_invested_claim (transactions : List Tx)
    (asset_types : List (String × String)) : ℚ :=
  (transactions.map fun tx =>
    if 0 < tx.quantity ∧ 0 < tx.price then
      cashContribution (normalizeAssetTypes asset_types) tx
    else 0).sum

/-- The claim amended as the code forces: `positive price` weakened to
`non-zero price` (the code only skips a price of exactly zero). -/
def cash_invested_amended (transactions : List Tx)
    (asset_types : List (String × String)) : ℚ :=
  (transactions.map fun tx =>
    if 0 < tx.quantity ∧ tx.price ≠ 0 then
      cashContribution (normalizeAssetTypes asset_types) tx
    else 0).sum

/-! ## Tolerant numeric parsing: `_to_float` (helpers.py 62-79) -/

/-- ASCII decimal digit test. -/
def isDigitChar (c : Char) : Bool := decide (48 ≤ c.toNat ∧ c.toNat ≤ 57)

/-- The numeric value of a digit string, most significant first. -/
def digitsVal (l : List Char) : ℕ :=
  l.foldl (fun n c => n * 10 + (c.toNat - 48)) 0

/-- Optional exponent suffix of a float literal: after the mantissa either
nothing is left, or `e`/`E`, an optional sign and a non-empty digit string. -/
def pyFloatTail (mant : ℚ) (rest : List Char) : Option ℚ :=
  match rest with
  | [] => some mant
  | e :: r =>
    if e = 'e' ∨ e = 'E' then
      let sr : Int × List Char :=
        match r with
        | [] => (1, [])
        | c :: t => if c = '+' then (1, t) else if c = '-' then (-1, t) else (1, c :: t)
      let ds := sr.2.takeWhile isDigitChar
      let r3 := sr.2.dropWhile isDigitChar
      if ds = [] ∨ r3 ≠ [] then none
      else some (mant * (10 : ℚ) ^ (sr.1 * (digitsVal ds : Int)))
    else none

/-- An unsigned float literal: digits, an optional `.` and fraction digits
(at least one digit on one side of the dot), an optional exponent. -/
def pyFloatCore (cs : List Char) : Option ℚ :=
  let ip := cs.takeWhile isDigitChar
  match cs.dropWhile isDigitChar with
  | [] => if ip = [] then none else some (digitsVal ip)
  | c :: r2 =>
    if c = '.' then
      let fp := r2.takeWhile isDigitChar
      let r3 := r2.dropWhile isDigitChar
      if ip = [] ∧ fp = [] then none
      else pyFloatTail ((digitsVal ip : ℚ) + (digitsVal fp : ℚ) / (10 : ℚ) ^ fp.length) r3
    else if ip = [] then none else pyFloatTail (digitsVal ip) (c :: r2)

/-- Python's `float()` on finite decimal literals: surrounding whitespace is
stripped, then an optional sign and an unsigned literal.  Named non-finite
literals (`inf`, `nan`), underscore digit grouping and non-ASCII digits are
outside this model; no property below exercises them. -/
def pyFloatOfString (s : String) : Option ℚ :=
  match stripList s.data with
  | [] => pyFloatCore []
  | c :: t =>
    if c = '+' then pyFloatCore t
    else if c = '-' then (pyFloatCore t).map Neg.neg
    else pyFloatCore (c :: t)

/-- `_to_float` (helpers.py 62-79): strip, drop the four currency codes,
drop spaces, turn commas into dots, then `float()` with `ValueError`
degrading to `0.0`.  A `None` input is `0.0`. -/
def to_float (v : Option String) : ℚ :=
  match v with
  | none => 0
  | some s =>
    let t := pyStrip s
    if t.data = [] then 0
    else
      let t1 := pyReplace (pyReplace (pyReplace (pyReplace t "EUR" "") "USD" "") "GBP" "") "PLN" ""
      let t2 := pyReplace t1 " " ""
      let t3 := pyReplace t2 "," "."
      (pyFloatOfString t3).getD 0

/-! ## Valuation of one position (coordinator.py 524-548)

The per-position arithmetic of `_async_update_data` once the quote is joined:
`asset_type` is the classified type, `price?` the quote price (absent on any
provider failure), `avg_buy` and `quantity` the position's basis fields. -/

structure AssetValuation where
  market_value : Option ℚ
  profit_loss_abs : Option ℚ
  profit_loss_pct : ℚ
  active_invested : ℚ
deriving DecidableEq

/-- Lines 524-548 of `coordinator.py`: the bond percent-of-face branch, the
zero-basis fallback to the current price for bonds, and the generic branch.
`active_invested` is the summand added to `total_active_invested`. -/
def valuePosition (asset_type : String) (price? : Option ℚ) (avg_buy quantity : ℚ) :
    AssetValuation :=
  match price? with
  | none => ⟨none, none, 0, 0⟩
  | some price =>
    let eab := if asset_type = "bond" ∧ avg_buy ≤ 0 then price else avg_buy
    if asset_type = "bond" then
      let basis := if eab ≠ 0 then eab else price
      { market_value := some (price / 100 * quantity)
        profit_loss_abs := some ((if eab ≠ 0 then (price - eab) / 100 else 0) * quantity)
        profit_loss_pct := if eab ≠ 0 then (price - eab) / eab * 100 else 0
        active_invested := (if basis ≠ 0 then basis / 100 else 0) * quantity }
    else
      { market_value := some (price * quantity)
        profit_loss_abs := some (if eab ≠ 0 then (price - eab) * quantity else 0)
        profit_loss_pct := if eab ≠ 0 then (price - eab) / eab * 100 else 0
        active_invested := eab * quantity }

/-! ## Fuzzy symbol resolution (coordinator.py 335-368, api/yahoo.py 29-89)

`search_symbols` is modelled on the `quotes` array of the already-fetched
search response: entries whose `symbol` field is missing or empty are skipped
and at most 10 results are returned (enrichment fields play no role in
resolution and are not modelled; transport failures give an empty payload).
The similarity score is `difflib.SequenceMatcher(None, a, b).ratio()`, which
for sequences shorter than 200 elements (no junk, no autojunk) is
`2·M/(|a|+|b|)` with `M` the total size of the matching blocks found by
repeatedly taking the longest common substring (earliest in `a`, then in `b`)
and recursing on both sides. -/

/-- `search_symbols` (api/yahoo.py 29-89) applied to the response's `quotes`
array: keep the non-empty symbols, at most 10. -/
def search_symbols (quotes : List (Option String)) : List String :=
  ((quotes.filterMap id).filter fun s => s ≠ "").take 10

/-- Length of the longest common prefix of two character lists. -/
def commonPrefixLen : List Char → List Char → ℕ
  | x :: xs, y :: ys => if x = y then commonPrefixLen xs ys + 1 else 0
  | _, _ => 0

/-- `find_longest_match` over the whole window: the triple `(i, j, size)` of
the longest common substring, preferring the earliest start in `a`, then the
earliest start in `b`. -/
def bestMatch (a b : List Char) : ℕ × ℕ × ℕ :=
  (List.range a.length).foldl
    (fun best i =>
      (List.range b.length).foldl
        (fun best j =>
          let k := commonPrefixLen (a.drop i) (b.drop j)
          if best.2.2 < k then (i, j, k) else best)
        best)
    (0, 0, 0)

/-- Total matched size `M` of `get_matching_blocks`, with explicit fuel; each
recursive call strictly shortens `a`, so fuel `a.length + 1` never runs out. -/
def matchTotalF : ℕ → List Char → List Char → ℕ
  | 0, _, _ => 0
  | fuel + 1, a, b =>
    let m := bestMatch a b
    if m.2.2 = 0 then 0
    else
      matchTotalF fuel (a.take m.1) (b.take m.2.1) + m.2.2 +
        matchTotalF fuel (a.drop (m.1 + m.2.2)) (b.drop (m.2.1 + m.2.2))

/-- Total matched size `M` for two character lists. -/
def matchTotal (a b : List Char) : ℕ := matchTotalF (a.length + 1) a b

/-- `SequenceMatcher(None, s, t).ratio()`: `2·M/(|s|+|t|)`, and 1 for two
empty sequences. -/
def sequence_ratio (s t : String) : ℚ :=
  if s.data.length + t.data.length = 0 then 1
  else 2 * (matchTotal s.data t.data : ℚ) / (s.data.length + t.data.length)

/-- The candidates scoring at least 0.9 against the requested symbol
(coordinator.py 355-359): the `high` list of the resolution loop. -/
def highCandidates (symbol : String) (results : List String) : List String :=
  results.filter fun c => (9 : ℚ) / 10 ≤ sequence_ratio (pyUpper symbol) (pyUpper c)

/-- The outcome of resolving one symbol on the `yahoo_public` path:
the mapped symbol, whether it was left unresolved, the mapping update to
persist, and the stored repair suggestions (`search_candidates[symbol]`). -/
structure ResolveOutcome where
  mapped : String
  unresolved : Bool
  update : Option (String × String)
  suggestions : List String
deriving DecidableEq

/-- One iteration of the `yahoo_public` resolution loop (coordinator.py
335-368): commodities append the position's (or base) currency; a persisted
override wins; otherwise the search candidates are scored and exactly one
high scorer is accepted and recorded, else the symbol maps to itself and is
flagged unresolved. -/
def resolve_symbol_yahoo (stored_mapping : List (String × String))
    (pos_type pos_currency base_currency symbol : String)
    (payload : List (Option String)) : ResolveOutcome :=
  if pos_type = "commodity" then
    let currency := if pos_currency ≠ "" then pos_currency else base_currency
    ⟨symbol ++ pyUpper (pyStrip currency), false, none, []⟩
  else
    match lookupAssoc stored_mapping symbol with
    | some existing => ⟨existing, false, none, []⟩
    | none =>
      let results := search_symbols payload
      let suggestions := results.take 5
      match highCandidates symbol results with
      | [m] => ⟨m, false, some (symbol, m), suggestions⟩
      | _ => ⟨symbol, true, none, suggestions⟩

/-! ## Suffix-probing quote fetcher (api/stooq.py)

The per-candidate HTTP round trip (request, status check, CSV split, `Close`
field check, `float` parse) either yields a usable closing price or does not
— every failure mode is caught and skipped — so it is modelled by an
environment `env : String → Option ℚ`.  The response timestamp (wall-clock
`utcnow`) is not modelled. -/

structure SQuote where
  price : Option ℚ
  currency : Option String
  source_symbol : Option String
deriving DecidableEq

/-- `_normalize_symbol` (api/stooq.py 13-14). -/
def stooq_normalize (s : String) : String := pyUpper (pyStrip (pyReplace s "$" ""))

/-- `_stooq_symbols` (api/stooq.py 17-24): the probe candidates for a symbol. -/
def stooq_symbols (symbol : String) : List String :=
  let sym := stooq_normalize symbol
  if sym = "" then []
  else if sym.data.contains '.' then [sym]
  else [sym ++ ".US", sym ++ ".DE", sym ++ ".UK", sym ++ ".L", sym ++ ".F", sym ++ ".PL", sym]

/-- The probe loop of `get_quotes` (api/stooq.py 63-84): the first candidate
with a usable closing price, with the candidate that produced it. -/
def firstUsableClose (env : String → Option ℚ) : List String → Option (ℚ × String)
  | [] => none
  | c :: rest =>
    match env c with
    | some p => some (p, c)
    | none => firstUsableClose env rest

/-- One iteration of the `get_quotes` loop (api/stooq.py 57-91): probe the
candidates and write the quote under the requested symbol. -/
def stooqStep (env : String → Option ℚ) (data : List (String × SQuote)) (symbol : String) :
    List (String × SQuote) :=
  let r := firstUsableClose env (stooq_symbols symbol)
  updateAssoc data symbol ⟨r.map Prod.fst, none, r.map Prod.snd⟩

/-- `get_quotes` (api/stooq.py 54-93): one entry per requested symbol, keyed
by the symbol as requested; `currency` is never assigned by this provider. -/
def stooq_get_quotes (env : String → Option ℚ) (symbols : List String) :
    List (String × SQuote) :=
  symbols.foldl (stooqStep env) []

/-! ## Invariant predicates of the replay index -/

/-- The keys of an association list, in order. -/
def keysOf {α β : Type} (l : List (α × β)) : List α := l.map Prod.fst

/-- A position in normal form: normalized broker and symbol, symbol non-empty. -/
def CanonPos (p : Pos) : Prop :=
  normBroker p.broker = p.broker ∧ sym_str p.symbol = p.symbol ∧ p.symbol ≠ ""

/-- An index entry in normal form: its key is its position's `(broker, symbol)`
and the position is in normal form. -/
def CanonEntry (e : (String × String) × Pos) : Prop :=
  e.1 = (e.2.broker, e.2.symbol) ∧ CanonPos e.2

/-- Every broker recorded in a `symbol_brokers` map is in normal form. -/
def GoodSB (sb : List (String × List String)) : Prop :=
  ∀ e ∈ sb, ∀ b ∈ e.2, normBroker b = b

/-- The index invariant carried through the replay fold. -/
def GoodIdx (idx : List ((String × String) × Pos)) : Prop :=
  (∀ e ∈ idx, CanonEntry e) ∧ (keysOf idx).Nodup

/-! ## Concrete inputs used in the example scenarios -/

/-- The prior position of the weighted-average example: 10 units at 100. -/
def c1pos : Pos := ⟨"AAPL", "Apple", "equity", 10, 100, "USD", "ib"⟩

/-- The example buy: 10 units at 200. -/
def c1tx : Tx := ⟨"AAPL", "Apple", 10, 200, "USD", "ib", 1⟩

/-- The first buy of symbol X, under broker `a`. -/
def c7txA : Tx := ⟨"X", "X", 1, 10, "USD", "a", 0⟩

/-- A later buy of the same symbol X under broker `b`. -/
def c7txB : Tx := ⟨"X", "X", 1, 20, "USD", "b", 1⟩

/-- The buy of the end-to-end scenario: 10 units of AAPL at 150 on day 1. -/
def c4buy : Tx := ⟨"AAPL", "AAPL", 10, 150, "USD", "ib", 1⟩

/-- The sell of the end-to-end scenario: 4 units of AAPL at 180 on day 2. -/
def c4sell : Tx := ⟨"AAPL", "AAPL", -4, 180, "USD", "ib", 2⟩

/-- The example transaction refuting the `positive price` wording: one unit
bought at price `-10` contributes `-10`, not nothing. -/
def c5tx : Tx := ⟨"X", "X", 1, -10, "USD", "b", 0⟩

/-- The six-hit search payload of the counterexample: five dissimilar symbols
and a sixth exact match. -/
def c8payload : List (Option String) :=
  [some "XQZW", some "QWKJ", some "ZZTP", some "MNOP", some "RSTU", some "AAAA"]

/-! ## Character and strip lemmas -/

lemma mk_data (l : List Char) : (String.mk l).data = l := rfl

lemma pyMax_eq_max (a b : ℚ) : pyMax a b = max a b := by
  rw [pyMax, max_def]

lemma pyMin_eq_min (a b : ℚ) : pyMin a b = min a b := by
  rw [pyMin, min_def]

lemma toNat_ofNat_valid {n : ℕ} (h : n.isValidChar) : (Char.ofNat n).toNat = n := by
  simp [Char.ofNat, h, Char.toNat, Char.ofNatAux, UInt32.toNat, BitVec.toNat_ofNatLt]

lemma lowerChar_toNat (c : Char) :
    (lowerChar c).toNat = if 65 ≤ c.toNat ∧ c.toNat ≤ 90 then c.toNat + 32 else c.toNat := by
  unfold lowerChar
  split
  · next h => exact toNat_ofNat_valid (Or.inl (by omega))
  · rfl

lemma upperChar_toNat (c : Char) :
    (upperChar c).toNat = if 97 ≤ c.toNat ∧ c.toNat ≤ 122 then c.toNat - 32 else c.toNat := by
  unfold upperChar
  split
  · next h => exact toNat_ofNat_valid (Or.inl (by omega))
  · rfl

lemma isPySpace_lowerChar (c : Char) : isPySpace (lowerChar c) = isPySpace c := by
  simp only [isPySpace, decide_eq_decide, lowerChar_toNat]
  split <;> omega

lemma isPySpace_upperChar (c : Char) : isPySpace (upperChar c) = isPySpace c := by
  simp only [isPySpace, decide_eq_decide, upperChar_toNat]
  split <;> omega

lemma lowerChar_eq_self {c : Char} (h : ¬(65 ≤ c.toNat ∧ c.toNat ≤ 90)) : lowerChar c = c := by
  simp [lowerChar, h]

lemma upperChar_eq_self {c : Char} (h : ¬(97 ≤ c.toNat ∧ c.toNat ≤ 122)) : upperChar c = c := by
  simp [upperChar, h]

lemma lowerChar_idem (c : Char) : lowerChar (lowerChar c) = lowerChar c := by
  apply lowerChar_eq_self
  rw [lowerChar_toNat]
  split <;> omega

lemma upperChar_idem (c : Char) : upperChar (upperChar c) = upperChar c := by
  apply upperChar_eq_self
  rw [upperChar_toNat]
  split <;> omega

lemma dropWhile_dropWhile {α : Type} (p : α → Bool) (l : List α) :
    (l.dropWhile p).dropWhile p = l.dropWhile p := by
  induction l with
  | nil => rfl
  | cons c l ih =>
    by_cases h : p c
    · simp [List.dropWhile_cons, h, ih]
    · simp [List.dropWhile_cons, h]

lemma head_not_of_dropWhile_eq {α : Type} {p : α → Bool} {c : α} {x : List α}
    (h : List.dropWhile p (c :: x) = c :: x) : p c = false := by
  by_contra hb
  have hc : p c = true := by revert hb; cases p c <;> simp
  rw [List.dropWhile_cons, if_pos hc] at h
  have hlen := congrArg List.length h
  have hle : (List.dropWhile p x).length ≤ x.length := by
    have := List.dropWhile_sublist (p := p) (l := x)
    exact this.length_le
  simp only [List.length_cons] at hlen
  omega

lemma dropWhile_rdropWhile_of_dropWhile {α : Type} {p : α → Bool} {m : List α}
    (hdm : List.dropWhile p m = m) :
    List.dropWhile p (List.rdropWhile p m) = List.rdropWhile p m := by
  obtain ⟨t, ht⟩ := List.rdropWhile_prefix p m
  cases hr : List.rdropWhile p m with
  | nil => simp
  | cons c r =>
    rw [hr] at ht
    have hm : m = c :: (r ++ t) := by rw [← ht]; simp
    have hpc : p c = false := head_not_of_dropWhile_eq (x := r ++ t) (by rw [← hm]; exact hdm)
    rw [List.dropWhile_cons, if_neg (by simp [hpc])]

lemma stripList_idem (l : List Char) : stripList (stripList l) = stripList l := by
  unfold stripList
  rw [dropWhile_rdropWhile_of_dropWhile (dropWhile_dropWhile _ _), List.rdropWhile_idempotent]

lemma stripList_map {f : Char → Char} (hf : ∀ c, isPySpace (f c) = isPySpace c)
    (l : List Char) : stripList (l.map f) = (stripList l).map f := by
  have hcomp : isPySpace ∘ f = isPySpace := funext hf
  have hd : ∀ x : List Char,
      List.dropWhile isPySpace (x.map f) = (List.dropWhile isPySpace x).map f := by
    intro x
    rw [List.dropWhile_map, hcomp]
  have hr : ∀ x : List Char,
      List.rdropWhile isPySpace (x.map f) = (List.rdropWhile isPySpace x).map f := by
    intro x
    simp only [List.rdropWhile, ← List.map_reverse, hd]
  rw [stripList, stripList, hd, hr]

lemma norm_str_idem (s : String) : norm_str (norm_str s) = norm_str s := by
  unfold norm_str pyLower pyStrip
  simp only [mk_data]
  rw [stripList_map isPySpace_lowerChar, stripList_idem, List.map_map]
  exact congrArg String.mk (List.map_congr_left fun c _ => lowerChar_idem c)

lemma sym_str_idem (s : String) : sym_str (sym_str s) = sym_str s := by
  unfold sym_str pyUpper pyStrip
  simp only [mk_data]
  rw [stripList_map isPySpace_upperChar, stripList_idem, List.map_map]
  exact congrArg String.mk (List.map_congr_left fun c _ => upperChar_idem c)

lemma normBroker_idem (s : String) : normBroker (normBroker s) = normBroker s := by
  unfold normBroker
  split
  · decide
  · next h =>
    rw [norm_str_idem, if_neg h]

/-! ## Association-list lemmas -/

lemma mem_updateAssoc {α β : Type} [DecidableEq α] {l : List (α × β)} {k : α} {v : β}
    {e : α × β} (h : e ∈ updateAssoc l k v) : e ∈ l ∨ e = (k, v) := by
  induction l with
  | nil => simpa [updateAssoc] using h
  | cons a rest ih =>
    obtain ⟨k', v'⟩ := a
    rw [updateAssoc] at h
    split at h
    · rcases List.mem_cons.mp h with h1 | h1
      · right; exact h1
      · left; exact List.mem_cons_of_mem _ h1
    · rcases List.mem_cons.mp h with h1 | h1
      · left; exact h1 ▸ List.mem_cons_self _ _
      · rcases ih h1 with h2 | h2
        · left; exact List.mem_cons_of_mem _ h2
        · right; exact h2

lemma lookupAssoc_eq_none_iff {α β : Type} [DecidableEq α] {l : List (α × β)} {k : α} :
    lookupAssoc l k = none ↔ k ∉ keysOf l := by
  induction l with
  | nil => simp [lookupAssoc, keysOf]
  | cons a rest ih =>
    obtain ⟨k', v'⟩ := a
    by_cases h : k' = k
    · subst h
      simp [lookupAssoc, keysOf]
    · rw [lookupAssoc, if_neg h]
      simp only [keysOf, List.map_cons, List.mem_cons, not_or]
      constructor
      · intro h1
        exact ⟨fun he => h he.symm, by simpa [keysOf] using ih.mp h1⟩
      · intro h1
        exact ih.mpr (by simpa [keysOf] using h1.2)

lemma lookupAssoc_mem {α β : Type} [DecidableEq α] {l : List (α × β)} {k : α} {v : β}
    (h : lookupAssoc l k = some v) : (k, v) ∈ l := by
  induction l with
  | nil => simp [lookupAssoc] at h
  | cons a rest ih =>
    obtain ⟨k', v'⟩ := a
    rw [lookupAssoc] at h
    split at h
    · next he =>
      obtain rfl := he
      obtain rfl : v' = v := by simpa using h
      exact List.mem_cons_self _ _
    · exact List.mem_cons_of_mem _ (ih h)

lemma updateAssoc_of_not_mem {α β : Type} [DecidableEq α] {l : List (α × β)} {k : α}
    (v : β) (h : k ∉ keysOf l) : updateAssoc l k v = l ++ [(k, v)] := by
  induction l with
  | nil => rfl
  | cons a rest ih =>
    obtain ⟨k', v'⟩ := a
    simp only [keysOf, List.map_cons, List.mem_cons] at h
    push_neg at h
    rw [updateAssoc, if_neg (fun he => h.1 he.symm), ih (by simpa [keysOf] using h.2)]
    rfl

lemma keysOf_updateAssoc_of_mem {α β : Type} [DecidableEq α] {l : List (α × β)} {k : α}
    (v : β) (h : k ∈ keysOf l) : keysOf (updateAssoc l k v) = keysOf l := by
  induction l with
  | nil => simp [keysOf] at h
  | cons a rest ih =>
    obtain ⟨k', v'⟩ := a
    rw [updateAssoc]
    by_cases he : k' = k
    · simp [he, keysOf]
    · simp only [keysOf, List.map_cons, List.mem_cons] at h
      rcases h with h | h
      · exact absurd h.symm he
      · rw [if_neg he]
        have hrec := ih (by simpa [keysOf] using h)
        simp only [keysOf] at hrec ⊢
        simp [hrec]

lemma nodup_keys_updateAssoc {α β : Type} [DecidableEq α] {l : List (α × β)} {k : α}
    (v : β) (h : (keysOf l).Nodup) : (keysOf (updateAssoc l k v)).Nodup := by
  by_cases hm : k ∈ keysOf l
  · rw [keysOf_updateAssoc_of_mem v hm]; exact h
  · rw [updateAssoc_of_not_mem v hm]
    simp only [keysOf, List.map_append, List.map_cons, List.map_nil]
    rw [List.nodup_append]
    refine ⟨h, List.nodup_singleton _, ?_⟩
    intro a ha hb
    simp only [List.mem_singleton] at hb
    exact hm (hb ▸ show a ∈ keysOf l from ha)

lemma lookupAssoc_updateAssoc {α β : Type} [DecidableEq α] (l : List (α × β)) (k k' : α)
    (v : β) :
    lookupAssoc (updateAssoc l k v) k' = if k = k' then some v else lookupAssoc l k' := by
  induction l with
  | nil => rfl
  | cons a rest ih =>
    obtain ⟨ka, va⟩ := a
    by_cases he : ka = k
    · subst he
      simp only [updateAssoc, if_pos rfl, lookupAssoc]
      by_cases h2 : ka = k'
      · simp [h2]
      · simp [h2]
    · simp only [updateAssoc, if_neg he, lookupAssoc]
      by_cases h2 : ka = k'
      · subst h2
        rw [if_pos rfl, if_pos rfl, if_neg (fun hh => he hh.symm)]
      · rw [if_neg h2, if_neg h2, ih]

/-! ## Canonical-form invariants of the replay index

Every entry the replay writes is keyed by its own normalized `(broker,
symbol)` pair, and the index never holds two entries with one key.  These
invariants drive the idempotence of replay. -/

lemma foldl_preserves {α β : Type} {P : β → Prop} {f : β → α → β}
    (hf : ∀ b a, P b → P (f b a)) :
    ∀ (l : List α) (b : β), P b → P (l.foldl f b) := by
  intro l
  induction l with
  | nil => intro b hb; exact hb
  | cons a l ih => intro b hb; exact ih _ (hf b a hb)

lemma goodIdx_buildStep (idx : List ((String × String) × Pos)) (pos : Pos)
    (h : GoodIdx idx) : GoodIdx (buildStep idx pos) := by
  simp only [buildStep]
  split
  · exact h
  · next hsym =>
    constructor
    · intro e he
      rcases mem_updateAssoc he with h1 | h1
      · exact h.1 e h1
      · subst h1
        exact ⟨rfl, normBroker_idem _, sym_str_idem _, hsym⟩
    · exact nodup_keys_updateAssoc _ h.2

lemma goodIdx_buildIndex (positions : List Pos) : GoodIdx (buildIndex positions) :=
  foldl_preserves goodIdx_buildStep positions [] ⟨by simp, by simp [keysOf]⟩

lemma goodSB_addBrokerSB {sb : List (String × List String)} {symbol broker : String}
    (h : GoodSB sb) (hb : normBroker broker = broker) : GoodSB (addBrokerSB sb symbol broker) := by
  unfold addBrokerSB
  split
  · intro e he b hbe
    rcases List.mem_append.mp he with h1 | h1
    · exact h e h1 b hbe
    · simp only [List.mem_singleton] at h1
      subst h1
      simp only [List.mem_singleton] at hbe
      exact hbe ▸ hb
  · next bs hl =>
    split
    · exact h
    · intro e he b hbe
      rcases mem_updateAssoc he with h1 | h1
      · exact h e h1 b hbe
      · subst h1
        simp only at hbe
        rcases List.mem_append.mp hbe with h2 | h2
        · exact h _ (lookupAssoc_mem hl) b h2
        · simp only [List.mem_singleton] at h2
          exact h2 ▸ hb

lemma goodSB_sbStep (sb : List (String × List String)) (pos : Pos)
    (h : GoodSB sb) : GoodSB (sbStep sb pos) := by
  simp only [sbStep]
  split
  · exact h
  · exact goodSB_addBrokerSB h (normBroker_idem _)

lemma goodSB_symbolBrokers (positions : List Pos) : GoodSB (symbolBrokers positions) :=
  foldl_preserves goodSB_sbStep positions [] (by intro e he; simp at he)

lemma goodIdx_stepTx {sb : List (String × List String)} (hsb : GoodSB sb)
    (idx : List ((String × String) × Pos)) (tx : Tx)
    (h : GoodIdx idx) : GoodIdx (stepTx sb idx tx) := by
  simp only [stepTx]
  split
  · exact h
  · next hsym =>
    have hwrite : ∀ (broker : String) (cur : Pos), normBroker broker = broker →
        GoodIdx (updateAssoc idx (broker, sym_str tx.symbol)
          (applyTxToCurrent cur broker (sym_str tx.symbol) tx)) := by
      intro broker cur hb
      constructor
      · intro e he
        rcases mem_updateAssoc he with h1 | h1
        · exact h.1 e h1
        · subst h1
          exact ⟨rfl, hb, sym_str_idem _, hsym⟩
      · exact nodup_keys_updateAssoc _ h.2
    cases hlook : lookupAssoc idx (normBroker tx.broker, sym_str tx.symbol) with
    | some current => exact hwrite _ _ (normBroker_idem _)
    | none =>
      cases hcand : (lookupAssoc sb (sym_str tx.symbol)).getD [] with
      | nil => exact hwrite _ _ (normBroker_idem _)
      | cons b t =>
        cases t with
        | nil =>
          have hbnorm : normBroker b = b := by
            cases hl : lookupAssoc sb (sym_str tx.symbol) with
            | none => rw [hl] at hcand; simp at hcand
            | some bs =>
              rw [hl] at hcand
              simp only [Option.getD_some] at hcand
              exact hsb _ (lookupAssoc_mem hl) b (by rw [hcand]; exact List.mem_singleton_self b)
          exact hwrite _ _ hbnorm
        | cons b2 t2 => exact hwrite _ _ (normBroker_idem _)

/-- The full index invariant of one replay run. -/
lemma goodIdx_replay (positions : List Pos) (transactions : List Tx) :
    GoodIdx ((sortByDate transactions).foldl (stepTx (symbolBrokers positions))
      (buildIndex positions)) :=
  foldl_preserves (goodIdx_stepTx (goodSB_symbolBrokers positions)) _ _
    (goodIdx_buildIndex positions)

/-! ## Re-indexing a canonical position list is the identity -/

lemma buildStep_canonical {idx : List ((String × String) × Pos)} {p : Pos}
    (hp : CanonPos p) (hk : (p.broker, p.symbol) ∉ keysOf idx) :
    buildStep idx p = idx ++ [((p.broker, p.symbol), p)] := by
  obtain ⟨hb, hs, hne⟩ := hp
  simp only [buildStep, hb, hs]
  rw [if_neg hne, updateAssoc_of_not_mem _ hk]

lemma foldl_buildStep_canonical (Q : List Pos) :
    ∀ idx : List ((String × String) × Pos), (∀ p ∈ Q, CanonPos p) →
      ((Q.map fun p => (p.broker, p.symbol)).Nodup) →
      (∀ p ∈ Q, (p.broker, p.symbol) ∉ keysOf idx) →
      Q.foldl buildStep idx = idx ++ Q.map fun p => ((p.broker, p.symbol), p) := by
  induction Q with
  | nil => intro idx _ _ _; simp
  | cons p Q ih =>
    intro idx hc hn hdisj
    rw [List.map_cons] at hn
    obtain ⟨hnotin, hn2⟩ := List.nodup_cons.mp hn
    have hstep : buildStep idx p = idx ++ [((p.broker, p.symbol), p)] :=
      buildStep_canonical (hc p (List.mem_cons_self _ _)) (hdisj p (List.mem_cons_self _ _))
    rw [List.foldl_cons, hstep,
      ih _ (fun q hq => hc q (List.mem_cons_of_mem _ hq)) hn2 ?_]
    · simp
    · intro q hq
      simp only [keysOf, List.map_append, List.map_cons, List.map_nil, List.mem_append,
        List.mem_singleton, not_or]
      refine ⟨hdisj q (List.mem_cons_of_mem _ hq), ?_⟩
      intro he
      exact hnotin (he ▸ List.mem_map_of_mem (fun p => (p.broker, p.symbol)) hq)

/-- Replaying an empty transaction log over a canonical, key-distinct position
list returns it unchanged. -/
lemma replay_nil_of_canonical (Q : List Pos) (hc : ∀ p ∈ Q, CanonPos p)
    (hn : (Q.map fun p => (p.broker, p.symbol)).Nodup) :
    apply_transactions_to_positions Q [] = Q := by
  unfold apply_transactions_to_positions
  show ((sortByDate []).foldl (stepTx (symbolBrokers Q)) (buildIndex Q)).map Prod.snd = Q
  have hsort : sortByDate ([] : List Tx) = [] := rfl
  rw [hsort, List.foldl_nil, buildIndex, foldl_buildStep_canonical Q [] hc hn (by simp [keysOf])]
  rw [List.nil_append, List.map_map,
    show (Prod.snd ∘ fun p : Pos => ((p.broker, p.symbol), p)) = id from rfl, List.map_id]

theorem helper_replay_output_canonical (P : List Pos) (T : List Tx) :
    (∀ p ∈ apply_transactions_to_positions P T, CanonPos p) ∧
      ((apply_transactions_to_positions P T).map fun p => (p.broker, p.symbol)).Nodup := by
  have hinv := goodIdx_replay P T
  constructor
  · intro p hp
    rw [apply_transactions_to_positions, List.mem_map] at hp
    obtain ⟨e, he, rfl⟩ := hp
    exact (hinv.1 e he).2
  · show ((((sortByDate T).foldl (stepTx (symbolBrokers P)) (buildIndex P)).map Prod.snd).map
      fun p => (p.broker, p.symbol)).Nodup
    rw [List.map_map]
    have : (((sortByDate T).foldl (stepTx (symbolBrokers P)) (buildIndex P)).map
        ((fun p => (p.broker, p.symbol)) ∘ Prod.snd)) =
        (((sortByDate T).foldl (stepTx (symbolBrokers P)) (buildIndex P)).map Prod.fst) := by
      apply List.map_congr_left
      intro e he
      exact ((hinv.1 e he).1).symm
    rw [this]
    exact hinv.2

/-- Claim C3.  Replay is idempotent on its own output: replaying the result of
any replay with an empty transaction log reproduces it unchanged. -/
theorem replay_idempotent (P : List Pos) (T : List Tx) :
    apply_transactions_to_positions (apply_transactions_to_positions P T) [] =
      apply_transactions_to_positions P T :=
  replay_nil_of_canonical _ (helper_replay_output_canonical P T).1
    (helper_replay_output_canonical P T).2

/-! ## Quantities stay non-negative through replay -/

lemma updateCostBasis_fst_nonneg (a b c d : ℚ) : 0 ≤ (updateCostBasis a b c d).1 := by
  show 0 ≤ pyMax (a + c) 0
  rw [pyMax_eq_max]
  exact le_max_right _ _

lemma nonneg_foldl_buildStep (P : List Pos) (hP : ∀ p ∈ P, 0 ≤ p.quantity) :
    ∀ idx, (∀ e ∈ idx, 0 ≤ e.2.quantity) →
      ∀ e ∈ P.foldl buildStep idx, 0 ≤ e.2.quantity := by
  induction P with
  | nil => intro idx h e he; exact h e he
  | cons p P ih =>
    intro idx h e he
    refine ih (fun q hq => hP q (List.mem_cons_of_mem _ hq)) _ ?_ e he
    intro e' he'
    simp only [buildStep] at he'
    split at he'
    · exact h e' he'
    · rcases mem_updateAssoc he' with h1 | h1
      · exact h e' h1
      · subst h1
        exact hP p (List.mem_cons_self _ _)

lemma nonneg_stepTx (sb : List (String × List String)) (idx : List ((String × String) × Pos))
    (tx : Tx) (h : ∀ e ∈ idx, 0 ≤ e.2.quantity) :
    ∀ e ∈ stepTx sb idx tx, 0 ≤ e.2.quantity := by
  intro e he
  simp only [stepTx] at he
  split at he
  · exact h e he
  · have hins : ∀ (broker : String) (cur : Pos),
        e ∈ updateAssoc idx (broker, sym_str tx.symbol)
          (applyTxToCurrent cur broker (sym_str tx.symbol) tx) → 0 ≤ e.2.quantity := by
      intro broker cur hmem
      rcases mem_updateAssoc hmem with h1 | h1
      · exact h e h1
      · subst h1
        exact updateCostBasis_fst_nonneg cur.quantity cur.avg_buy_price tx.quantity tx.price
    rcases hlook : lookupAssoc idx (normBroker tx.broker, sym_str tx.symbol) with _ | current
    · rw [hlook] at he
      rcases hcand : (lookupAssoc sb (sym_str tx.symbol)).getD [] with _ | ⟨b, _ | ⟨b2, t2⟩⟩ <;>
        rw [hcand] at he
      · exact hins _ _ he
      · exact hins _ _ he
      · exact hins _ _ he
    · rw [hlook] at he
      exact hins _ _ he

/-- Claim C2.  After replaying any transaction stream over positions with
non-negative quantities, every position's quantity is still non-negative; a
sell whose magnitude exceeds the held quantity floors the position at
`(quantity, avg_buy_price) = (0, 0)`; a sell leaving residual quantity keeps
the average untouched; a sell that exactly zeroes the position resets the
average to zero. -/
theorem replay_sell_floor :
    (∀ (P : List Pos) (T : List Tx), (∀ p ∈ P, 0 ≤ p.quantity) →
      ∀ q ∈ apply_transactions_to_positions P T, 0 ≤ q.quantity) ∧
    (∀ qo ao qt pr : ℚ, qt < 0 → qo + qt < 0 → updateCostBasis qo ao qt pr = (0, 0)) ∧
    (∀ qo ao qt pr : ℚ, qt < 0 → 0 < qo + qt → updateCostBasis qo ao qt pr = (qo + qt, ao)) ∧
    (∀ qo ao qt pr : ℚ, qt < 0 → qo + qt = 0 → updateCostBasis qo ao qt pr = (0, 0)) := by
  refine ⟨?_, ?_, ?_, ?_⟩
  · intro P T hP q hq
    rw [apply_transactions_to_positions, List.mem_map] at hq
    obtain ⟨e, he, rfl⟩ := hq
    refine foldl_preserves (P := fun idx => ∀ e ∈ idx, 0 ≤ e.2.quantity)
      (fun idx tx h => nonneg_stepTx _ idx tx h) (sortByDate T) _ ?_ e he
    exact nonneg_foldl_buildStep P hP [] (by simp)
  · intro qo ao qt pr h1 h2
    simp only [updateCostBasis]
    rw [if_neg (not_lt.mpr h1.le), if_neg (not_lt.mpr h2.le), pyMax_eq_max,
      max_eq_right h2.le]
  · intro qo ao qt pr h1 h2
    simp only [updateCostBasis]
    rw [if_neg (not_lt.mpr h1.le), if_pos h2, pyMax_eq_max, max_eq_left h2.le]
  · intro qo ao qt pr h1 h2
    simp only [updateCostBasis]
    rw [if_neg (not_lt.mpr h1.le), if_neg (by rw [h2]; exact lt_irrefl 0), h2, pyMax_eq_max,
      max_self]

/-! ## Replay over a one-position snapshot -/

lemma buildIndex_single (p : Pos) (hp : CanonPos p) :
    buildIndex [p] = [((p.broker, p.symbol), p)] := by
  unfold buildIndex
  rw [List.foldl_cons, List.foldl_nil, buildStep_canonical hp (by simp [keysOf])]
  rfl

lemma symbolBrokers_single (p : Pos) (hp : CanonPos p) :
    symbolBrokers [p] = [(p.symbol, [p.broker])] := by
  unfold symbolBrokers
  rw [List.foldl_cons, List.foldl_nil]
  simp only [sbStep, hp.2.1, hp.1]
  rw [if_neg hp.2.2]
  rfl

lemma stepTx_single (p : Pos) (tx : Tx) (hp : CanonPos p)
    (hs : sym_str tx.symbol = p.symbol) :
    stepTx [(p.symbol, [p.broker])] [((p.broker, p.symbol), p)] tx =
      [((p.broker, p.symbol), applyTxToCurrent p p.broker p.symbol tx)] := by
  simp only [stepTx, hs]
  rw [if_neg hp.2.2]
  by_cases hb : normBroker tx.broker = p.broker
  · rw [hb]
    have hlook : lookupAssoc [((p.broker, p.symbol), p)] (p.broker, p.symbol) = some p := by
      simp [lookupAssoc]
    rw [hlook]
    simp [updateAssoc]
  · have hlook : lookupAssoc [((p.broker, p.symbol), p)] (normBroker tx.broker, p.symbol)
        = none := by
      simp only [lookupAssoc]
      rw [if_neg]
      intro he
      exact hb (congrArg Prod.fst he).symm
    have hsb : (lookupAssoc [(p.symbol, [p.broker])] p.symbol).getD [] = [p.broker] := by
      simp [lookupAssoc]
    rw [hlook, hsb]
    show updateAssoc [((p.broker, p.symbol), p)] (p.broker, p.symbol)
        (applyTxToCurrent ((lookupAssoc [((p.broker, p.symbol), p)] (p.broker, p.symbol)).getD
          emptyPos) p.broker p.symbol tx) = _
    have hlook2 : lookupAssoc [((p.broker, p.symbol), p)] (p.broker, p.symbol) = some p := by
      simp [lookupAssoc]
    rw [hlook2]
    simp [updateAssoc]

/-- Replaying one transaction whose symbol resolves to the sole position's
symbol applies it to that position, whatever broker the transaction names. -/
lemma replay_single (p : Pos) (tx : Tx) (hp : CanonPos p)
    (hs : sym_str tx.symbol = p.symbol) :
    apply_transactions_to_positions [p] [tx] = [applyTxToCurrent p p.broker p.symbol tx] := by
  have h1 : apply_transactions_to_positions [p] [tx] =
      (List.foldl (stepTx (symbolBrokers [p])) (buildIndex [p]) (sortByDate [tx])).map
        Prod.snd := rfl
  rw [h1, show sortByDate [tx] = [tx] from rfl, buildIndex_single p hp,
    symbolBrokers_single p hp, List.foldl_cons, List.foldl_nil, stepTx_single p tx hp hs]
  rfl

/-- The buy arithmetic of `applyTxToCurrent` on a fully populated position. -/
lemma applyTxToCurrent_buy (p : Pos) (tx : Tx) (broker : String)
    (hname : p.name ≠ "") (htype : p.ptype ≠ "") (hcur : p.currency ≠ "")
    (hq : 0 ≤ p.quantity) (ht : 0 < tx.quantity) :
    applyTxToCurrent p broker p.symbol tx =
      { p with broker := broker
               quantity := p.quantity + tx.quantity
               avg_buy_price := (p.avg_buy_price * p.quantity + tx.price * tx.quantity) /
                 (p.quantity + tx.quantity) } := by
  have hpos : 0 < p.quantity + tx.quantity := by linarith
  simp only [applyTxToCurrent, updateCostBasis]
  rw [if_pos ht, if_neg (ne_of_gt hpos), pyMax_eq_max, max_eq_left hpos.le, if_pos hname,
    if_pos htype, if_pos hcur]

/-- Claim C1.  Replaying a buy of `qty_tx > 0` at price `p` over a position
holding `qty_old ≥ 0` at average `avg_old` yields quantity `qty_old + qty_tx`
and the weighted average `(avg_old·qty_old + p·qty_tx) / (qty_old + qty_tx)`. -/
theorem replay_buy_weighted_average (p : Pos) (tx : Tx) (hp : CanonPos p)
    (hname : p.name ≠ "") (htype : p.ptype ≠ "") (hcur : p.currency ≠ "")
    (hs : sym_str tx.symbol = p.symbol) (_hb : normBroker tx.broker = p.broker)
    (hq : 0 ≤ p.quantity) (ht : 0 < tx.quantity) :
    apply_transactions_to_positions [p] [tx] =
      [{ p with quantity := p.quantity + tx.quantity,
                avg_buy_price := (p.avg_buy_price * p.quantity + tx.price * tx.quantity) /
                  (p.quantity + tx.quantity) }] := by
  rw [replay_single p tx hp hs, applyTxToCurrent_buy p tx p.broker hname htype hcur hq ht]

theorem replay_buy_weighted_average_witness :
    apply_transactions_to_positions [c1pos] [c1tx] =
      [{ c1pos with quantity := 20, avg_buy_price := 150 }] := by
  have h := replay_buy_weighted_average c1pos c1tx ⟨by decide, by decide, by decide⟩
    (by decide) (by decide) (by decide) (by decide) (by decide)
    (by norm_num [c1pos]) (by norm_num [c1tx])
  rw [h]
  norm_num [c1pos, c1tx]

/-- The position written for a transaction that matched nothing: zero basis,
the transaction's own fields, type `equity`. -/
lemma applyTxToCurrent_empty (tx : Tx) (broker symbol : String) (hname : tx.name ≠ "")
    (ht : 0 < tx.quantity) :
    applyTxToCurrent emptyPos broker symbol tx =
      ⟨symbol, tx.name, "equity", tx.quantity, tx.price, tx.currency, broker⟩ := by
  have hq0 : (0 : ℚ) + tx.quantity ≠ 0 := by rw [zero_add]; exact ne_of_gt ht
  simp only [applyTxToCurrent, updateCostBasis, emptyPos]
  rw [if_pos ht, if_neg hq0]
  rw [if_neg (by simp), if_pos hname, if_neg (by simp), if_neg (by simp)]
  rw [zero_add, pyMax_eq_max, max_eq_left ht.le, zero_mul, zero_add,
    mul_div_cancel_right₀ _ (ne_of_gt ht)]

/-- One replay step over an empty index and empty disambiguation map. -/
lemma stepTx_empty (tx : Tx) (hsym : sym_str tx.symbol ≠ "") :
    stepTx [] [] tx =
      [((normBroker tx.broker, sym_str tx.symbol),
        applyTxToCurrent emptyPos (normBroker tx.broker) (sym_str tx.symbol) tx)] := by
  simp only [stepTx]
  rw [if_neg hsym]
  rfl

/-- A transaction on a fresh symbol starts a zero-basis position under its own
(normalized) broker. -/
lemma replay_fresh (tx : Tx) (hsym : sym_str tx.symbol ≠ "") (hname : tx.name ≠ "")
    (ht : 0 < tx.quantity) :
    apply_transactions_to_positions [] [tx] =
      [⟨sym_str tx.symbol, tx.name, "equity", tx.quantity, tx.price, tx.currency,
        normBroker tx.broker⟩] := by
  have h1 : apply_transactions_to_positions [] [tx] =
      (stepTx [] [] tx).map Prod.snd := rfl
  rw [h1, stepTx_empty tx hsym, applyTxToCurrent_empty tx _ _ hname ht]
  rfl

/-- Replaying two fresh buys of one symbol under two brokers, with no prior
snapshot, yields two separate zero-basis positions: the position the first
transaction creates does not draw the second one to its broker. -/
lemma replay_two_fresh (tx1 tx2 : Tx) (hsym : sym_str tx1.symbol ≠ "")
    (hs : sym_str tx2.symbol = sym_str tx1.symbol)
    (hb : normBroker tx2.broker ≠ normBroker tx1.broker)
    (hn1 : tx1.name ≠ "") (hn2 : tx2.name ≠ "")
    (ht1 : 0 < tx1.quantity) (ht2 : 0 < tx2.quantity)
    (hd : tx1.date ≤ tx2.date) :
    apply_transactions_to_positions [] [tx1, tx2] =
      [⟨sym_str tx1.symbol, tx1.name, "equity", tx1.quantity, tx1.price, tx1.currency,
        normBroker tx1.broker⟩,
       ⟨sym_str tx2.symbol, tx2.name, "equity", tx2.quantity, tx2.price, tx2.currency,
        normBroker tx2.broker⟩] := by
  have hsort : sortByDate [tx1, tx2] = [tx1, tx2] := by
    simp [sortByDate, insertByDate, hd]
  have h1 : apply_transactions_to_positions [] [tx1, tx2] =
      ((sortByDate [tx1, tx2]).foldl (stepTx []) []).map Prod.snd := rfl
  rw [h1, hsort, List.foldl_cons, List.foldl_cons, List.foldl_nil, stepTx_empty tx1 hsym]
  have hstep2 : stepTx []
      [((normBroker tx1.broker, sym_str tx1.symbol),
        applyTxToCurrent emptyPos (normBroker tx1.broker) (sym_str tx1.symbol) tx1)] tx2 =
      [((normBroker tx1.broker, sym_str tx1.symbol),
        applyTxToCurrent emptyPos (normBroker tx1.broker) (sym_str tx1.symbol) tx1),
       ((normBroker tx2.broker, sym_str tx2.symbol),
        applyTxToCurrent emptyPos (normBroker tx2.broker) (sym_str tx2.symbol) tx2)] := by
    simp only [stepTx, hs]
    rw [if_neg hsym]
    have hlook : lookupAssoc
        [((normBroker tx1.broker, sym_str tx1.symbol),
          applyTxToCurrent emptyPos (normBroker tx1.broker) (sym_str tx1.symbol) tx1)]
        (normBroker tx2.broker, sym_str tx1.symbol) = none := by
      simp only [lookupAssoc]
      rw [if_neg]
      intro he
      exact hb (congrArg Prod.fst he).symm
    rw [hlook]
    show updateAssoc _ (normBroker tx2.broker, sym_str tx1.symbol)
        (applyTxToCurrent emptyPos (normBroker tx2.broker) (sym_str tx1.symbol) tx2) = _
    rw [updateAssoc, if_neg]
    · rfl
    · intro he
      exact hb (congrArg Prod.fst he).symm
  rw [hstep2, List.map_cons, List.map_cons, List.map_nil,
    applyTxToCurrent_empty tx1 _ _ hn1 ht1, applyTxToCurrent_empty tx2 _ _ hn2 ht2]

/-- Counterexample to claim C7 as stated: the position broker `a` holds after
`c7txA` is the only holder of symbol X when `c7txB` arrives, yet `c7txB` is
not attributed to `a` — positions created earlier in the same replay do not
feed the disambiguation map, so the replay ends with two one-unit positions. -/
theorem cross_broker_within_replay_cex :
    (apply_transactions_to_positions [] [c7txA, c7txB]).map
        (fun p => (p.broker, p.quantity)) = [("a", 1), ("b", 1)] ∧
      (apply_transactions_to_positions [] [c7txA, c7txB]).length = 2 := by
  have h := replay_two_fresh c7txA c7txB (by decide) (by decide) (by decide)
    (by decide) (by decide) (by norm_num [c7txA]) (by norm_num [c7txB]) (by decide)
  rw [h]
  constructor
  · decide
  · rfl

/-- Claim C7, amended: only brokers holding the symbol in the initial
snapshot feed single-broker disambiguation.  A transaction missing its exact
key is attributed to the snapshot's sole holder of its symbol when one
exists; otherwise — positions created earlier in the same replay included —
it starts a fresh zero-basis position under its own broker. -/
theorem replay_snapshot_disambiguation :
    (∀ (p : Pos) (tx : Tx), CanonPos p → p.name ≠ "" → p.ptype ≠ "" → p.currency ≠ "" →
      sym_str tx.symbol = p.symbol → normBroker tx.broker ≠ p.broker →
      0 ≤ p.quantity → 0 < tx.quantity →
      apply_transactions_to_positions [p] [tx] =
        [{ p with quantity := p.quantity + tx.quantity,
                  avg_buy_price := (p.avg_buy_price * p.quantity + tx.price * tx.quantity) /
                    (p.quantity + tx.quantity) }]) ∧
    (∀ tx : Tx, sym_str tx.symbol ≠ "" → tx.name ≠ "" → 0 < tx.quantity →
      apply_transactions_to_positions [] [tx] =
        [⟨sym_str tx.symbol, tx.name, "equity", tx.quantity, tx.price, tx.currency,
          normBroker tx.broker⟩]) := by
  constructor
  · intro p tx hp hname htype hcur hs hb hq ht
    rw [replay_single p tx hp hs, applyTxToCurrent_buy p tx p.broker hname htype hcur hq ht]
  · intro tx hsym hname ht
    exact replay_fresh tx hsym hname ht

/-! ## Realized P&L -/

lemma ite_neg_max (x : ℚ) : (if x < 0 then (0 : ℚ) else x) = max x 0 := by
  rcases le_or_lt 0 x with h | h
  · rw [if_neg (not_lt.mpr h), max_eq_left h]
  · rw [if_pos h, max_eq_right h.le]

/-- A fresh buy followed by a covered sell of the same `(broker, symbol)` key
realizes `(sale price - buy price) × sold quantity`. -/
lemma realized_buy_sell (b s : Tx) (hsym : sym_str b.symbol ≠ "")
    (hks : sym_str s.symbol = sym_str b.symbol)
    (hkb : normBroker s.broker = normBroker b.broker)
    (hqb : 0 < b.quantity) (hqs : s.quantity < 0) (hle : -s.quantity ≤ b.quantity)
    (hd : b.date ≤ s.date) :
    compute_realized_profit_loss [b, s] = (s.price - b.price) * (-s.quantity) := by
  have hsort : sortByDate [b, s] = [b, s] := by
    simp [sortByDate, insertByDate, hd]
  have h0 : compute_realized_profit_loss [b, s] =
      ((sortByDate [b, s]).foldl realizedStep ⟨0, []⟩).realized := rfl
  rw [h0, hsort, List.foldl_cons, List.foldl_cons, List.foldl_nil]
  have h1 : realizedStep ⟨0, []⟩ b =
      ⟨0, [((normBroker b.broker, sym_str b.symbol), (b.quantity, b.price))]⟩ := by
    simp only [realizedStep, lookupAssoc, Option.getD_none, updateAssoc]
    rw [if_neg hsym, if_pos hqb]
    rw [zero_add, zero_mul, zero_add, if_neg hqb.ne', mul_div_cancel_right₀ _ hqb.ne']
  rw [h1]
  have h2 : realizedStep
      ⟨0, [((normBroker b.broker, sym_str b.symbol), (b.quantity, b.price))]⟩ s =
      ⟨(s.price - b.price) * (-s.quantity),
        [((normBroker b.broker, sym_str b.symbol),
          (b.quantity + s.quantity,
            if 0 < b.quantity + s.quantity then b.price else 0))]⟩ := by
    simp only [realizedStep, hks, hkb]
    rw [if_neg hsym, if_neg (not_lt.mpr hqs.le), if_pos hqs]
    have hlook : lookupAssoc
        [((normBroker b.broker, sym_str b.symbol), ((b.quantity : ℚ), (b.price : ℚ)))]
        (normBroker b.broker, sym_str b.symbol) =
        some (b.quantity, b.price) := by
      simp [lookupAssoc]
    rw [hlook]
    simp only [Option.getD_some]
    have hused : pyMin (-s.quantity) (pyMax b.quantity 0) = -s.quantity := by
      rw [pyMin_eq_min, pyMax_eq_max, max_eq_left hqb.le, min_eq_left hle]
    have hqnew : (if b.quantity - -s.quantity < 0 then (0 : ℚ)
        else b.quantity - -s.quantity) = b.quantity + s.quantity := by
      rw [sub_neg_eq_add, ite_neg_max, max_eq_left (by linarith)]
    rw [hused, hqnew, zero_add, updateAssoc, if_pos rfl]
  rw [h2]

/-- Claim C4.  On the time-sorted stream, each sell adds
`(sale_price - avg_cost) × min(|sell_qty|, max(held_qty, 0))` to the realized
scalar and clamps the remaining quantity at zero; the buy-then-sell example
realizes 120. -/
theorem realized_sell_recognition :
    (∀ (st : RState) (tx : Tx), sym_str tx.symbol ≠ "" → tx.quantity < 0 →
      (realizedStep st tx).realized =
        st.realized + (tx.price - rstAvg st tx) * min (-tx.quantity) (max (rstQty st tx) 0) ∧
      rstQty (realizedStep st tx) tx = max (rstQty st tx + tx.quantity) 0) ∧
    compute_realized_profit_loss [c4buy, c4sell] = 120 := by
  constructor
  · intro st tx hsym hneg
    constructor
    · show RState.realized (realizedStep st tx) = _
      simp only [realizedStep]
      rw [if_neg hsym, if_neg (not_lt.mpr hneg.le), if_pos hneg]
      rw [pyMin_eq_min, pyMax_eq_max]
      rfl
    · show rstQty (realizedStep st tx) tx = _
      unfold rstQty
      simp only [realizedStep]
      rw [if_neg hsym, if_neg (not_lt.mpr hneg.le), if_pos hneg]
      simp only [lookupAssoc_updateAssoc, if_pos rfl, Option.getD_some]
      rw [sub_neg_eq_add, ite_neg_max]
      simp
  · rw [realized_buy_sell c4buy c4sell (by decide) (by decide) (by decide)
      (by norm_num [c4buy]) (by norm_num [c4sell]) (by norm_num [c4buy, c4sell]) (by decide)]
    norm_num [c4buy, c4sell]

/-! ## Cash invested -/

lemma cash_foldl (normalized : List (String × String)) (txs : List Tx) (acc : ℚ) :
    txs.foldl (cashStep normalized) acc =
      acc + (txs.map fun tx =>
        if 0 < tx.quantity ∧ tx.price ≠ 0 then cashContribution normalized tx else 0).sum := by
  induction txs generalizing acc with
  | nil => simp
  | cons tx txs ih =>
    rw [List.foldl_cons, ih, List.map_cons, List.sum_cons]
    have hstep : cashStep normalized acc tx =
        acc + (if 0 < tx.quantity ∧ tx.price ≠ 0 then cashContribution normalized tx else 0) := by
      by_cases h1 : tx.quantity ≤ 0
      · rw [cashStep, if_pos h1, if_neg (fun hc => absurd hc.1 (not_lt.mpr h1)), add_zero]
      · by_cases h2 : tx.price = 0
        · rw [cashStep, if_neg h1, if_pos h2, if_neg (fun hc => hc.2 h2), add_zero]
        · rw [cashStep, if_neg h1, if_neg h2, if_pos ⟨not_le.mp h1, h2⟩]
    rw [hstep]
    ring

/-- Counterexample to claim C5 as stated: the code sums a transaction with
positive quantity and *negative* price (only a price of exactly zero is
skipped), while the claimed sum over positive-price transactions is zero. -/
theorem cash_invested_negative_price_cex :
    compute_total_cash_invested [c5tx] [] = -10 ∧ cash_invested_claim [c5tx] [] = 0 := by
  constructor
  · show cashStep (normalizeAssetTypes []) 0 c5tx = -10
    rw [cashStep, if_neg (by norm_num [c5tx]), if_neg (by norm_num [c5tx])]
    rw [cashContribution, if_neg]
    · norm_num [c5tx]
    · show (lookupAssoc (normalizeAssetTypes []) _).getD "" = "bond" → False
      intro h
      simp [normalizeAssetTypes, lookupAssoc] at h
  · rw [cash_invested_claim, List.map_cons, List.map_nil, List.sum_cons, List.sum_nil,
      if_neg (by norm_num [c5tx])]
    norm_num

/-- Claim C5, amended: total cash invested is the sum of `price × quantity`
(`price/100 × quantity` for bond-classified symbols) over exactly the
transactions with positive quantity and non-zero price. -/
theorem cash_invested_nonzero_price (txs : List Tx) (types : List (String × String)) :
    compute_total_cash_invested txs types = cash_invested_amended txs types := by
  rw [compute_total_cash_invested, cash_invested_amended, cash_foldl, zero_add]

/-! ## Bond valuation -/

/-- Claim C6.  A bond position with a quote price is valued percent-of-face:
`market_value = (price/100)·quantity`; in particular price 98.5 with quantity
1000 values at 985. -/
theorem bond_market_value (price avg qty : ℚ) :
    (valuePosition "bond" (some price) avg qty).market_value = some (price / 100 * qty) ∧
      (valuePosition "bond" (some (197 / 2)) 0 1000).market_value = some 985 := by
  have h : ∀ p a q : ℚ,
      (valuePosition "bond" (some p) a q).market_value = some (p / 100 * q) := by
    intro p a q
    simp [valuePosition]
  refine ⟨h price avg qty, ?_⟩
  rw [h (197 / 2) 0 1000]
  norm_num

/-! ## Fuzzy symbol resolution -/

lemma sequence_ratio_eval (s t : String) (m n1 n2 : ℕ)
    (hm : matchTotal s.data t.data = m) (h1 : s.data.length = n1) (h2 : t.data.length = n2)
    (hn : n1 + n2 ≠ 0) :
    sequence_ratio s t = 2 * (m : ℚ) / ((n1 : ℚ) + (n2 : ℚ)) := by
  rw [sequence_ratio, h1, h2, hm, if_neg hn]

/-- Claim C8's decision logic on the no-override, non-commodity path: up to 10
search candidates are scored, the stored suggestions are the top 5, exactly
one candidate at or above 0.9 is accepted and recorded, and anything else
leaves the symbol mapped to itself and flagged unresolved. -/
theorem fuzzy_resolution_logic (sm : List (String × String)) (pt pc bc sym : String)
    (payload : List (Option String))
    (h1 : lookupAssoc sm sym = none) (h2 : pt ≠ "commodity") :
    (search_symbols payload).length ≤ 10 ∧
    (resolve_symbol_yahoo sm pt pc bc sym payload).suggestions =
      (search_symbols payload).take 5 ∧
    (∀ m, highCandidates sym (search_symbols payload) = [m] →
      resolve_symbol_yahoo sm pt pc bc sym payload =
        ⟨m, false, some (sym, m), (search_symbols payload).take 5⟩) ∧
    ((highCandidates sym (search_symbols payload)).length ≠ 1 →
      resolve_symbol_yahoo sm pt pc bc sym payload =
        ⟨sym, true, none, (search_symbols payload).take 5⟩) := by
  have hres : resolve_symbol_yahoo sm pt pc bc sym payload =
      (match highCandidates sym (search_symbols payload) with
        | [m] => ⟨m, false, some (sym, m), (search_symbols payload).take 5⟩
        | _ => ⟨sym, true, none, (search_symbols payload).take 5⟩) := by
    simp only [resolve_symbol_yahoo]
    rw [if_neg h2, h1]
  refine ⟨?_, ?_, ?_, ?_⟩
  · rw [search_symbols]
    rw [List.length_take]
    exact min_le_left _ _
  · rcases hh : highCandidates sym (search_symbols payload) with _ | ⟨m, _ | ⟨m2, t⟩⟩ <;>
      rw [hres, hh]
  · intro m hm
    rw [hres, hm]
  · intro hlen
    rcases hh : highCandidates sym (search_symbols payload) with _ | ⟨m, _ | ⟨m2, t⟩⟩
    · rw [hres, hh]
    · rw [hh] at hlen
      simp at hlen
    · rw [hres, hh]

theorem fuzzy_resolution_logic_witness :
    (search_symbols [some "AB"]).length ≤ 10 :=
  (fuzzy_resolution_logic [] "equity" "" "USD" "AB" [some "AB"] rfl (by decide)).1

/-- Counterexample to claim C8 as stated: the search yields six scored
candidates, not at most five; none of the top five scores 0.9, so under the
claim's reading the symbol would stay unresolved, yet the code accepts the
sixth candidate and records the mapping. -/
theorem fuzzy_sixth_candidate_cex :
    (search_symbols c8payload).length = 6 ∧
    (∀ c ∈ (search_symbols c8payload).take 5,
      sequence_ratio (pyUpper "AAAA") (pyUpper c) < 9 / 10) ∧
    (resolve_symbol_yahoo [] "equity" "" "USD" "AAAA" c8payload).unresolved = false ∧
    (resolve_symbol_yahoo [] "equity" "" "USD" "AAAA" c8payload).mapped = "AAAA" ∧
    (resolve_symbol_yahoo [] "equity" "" "USD" "AAAA" c8payload).update =
      some ("AAAA", "AAAA") := by
  have hs : search_symbols c8payload =
      ["XQZW", "QWKJ", "ZZTP", "MNOP", "RSTU", "AAAA"] := by decide
  have hlow : ∀ c ∈ (["XQZW", "QWKJ", "ZZTP", "MNOP", "RSTU"] : List String),
      sequence_ratio (pyUpper "AAAA") (pyUpper c) < 9 / 10 := by
    intro c hc
    have heval : ∀ t : String, matchTotal (pyUpper "AAAA").data (pyUpper t).data = 0 →
        (pyUpper t).data.length = 4 → sequence_ratio (pyUpper "AAAA") (pyUpper t) < 9 / 10 := by
      intro t hm hl
      rw [sequence_ratio_eval _ _ 0 4 4 hm (by decide) hl (by norm_num)]
      norm_num
    simp only [List.mem_cons, List.not_mem_nil, or_false] at hc
    rcases hc with rfl | rfl | rfl | rfl | rfl
    · exact heval _ (by decide) (by decide)
    · exact heval _ (by decide) (by decide)
    · exact heval _ (by decide) (by decide)
    · exact heval _ (by decide) (by decide)
    · exact heval _ (by decide) (by decide)
  have hhighval : sequence_ratio (pyUpper "AAAA") (pyUpper "AAAA") = 1 := by
    rw [sequence_ratio_eval _ _ 4 4 4 (by decide) (by decide) (by decide) (by norm_num)]
    norm_num
  have hhigh : highCandidates "AAAA" (search_symbols c8payload) = ["AAAA"] := by
    rw [hs, highCandidates]
    rw [List.filter_cons_of_neg (by
        simp only [decide_eq_true_eq, not_le]
        exact hlow "XQZW" (by decide)),
      List.filter_cons_of_neg (by
        simp only [decide_eq_true_eq, not_le]
        exact hlow "QWKJ" (by decide)),
      List.filter_cons_of_neg (by
        simp only [decide_eq_true_eq, not_le]
        exact hlow "ZZTP" (by decide)),
      List.filter_cons_of_neg (by
        simp only [decide_eq_true_eq, not_le]
        exact hlow "MNOP" (by decide)),
      List.filter_cons_of_neg (by
        simp only [decide_eq_true_eq, not_le]
        exact hlow "RSTU" (by decide)),
      List.filter_cons_of_pos (by
        simp only [decide_eq_true_eq]
        rw [hhighval]
        norm_num),
      List.filter_nil]
  have hacc := (fuzzy_resolution_logic [] "equity" "" "USD" "AAAA" c8payload rfl
    (by decide)).2.2.1 "AAAA" hhigh
  refine ⟨by rw [hs]; rfl, ?_, by rw [hacc], by rw [hacc], by rw [hacc]⟩
  intro c hc
  apply hlow
  rw [hs] at hc
  have htake : (["XQZW", "QWKJ", "ZZTP", "MNOP", "RSTU", "AAAA"] : List String).take 5 =
      ["XQZW", "QWKJ", "ZZTP", "MNOP", "RSTU"] := rfl
  rw [htake] at hc
  exact hc

/-! ## Tolerant numeric parsing -/

lemma digit_toNat {c : Char} (h : isDigitChar c = true) : 48 ≤ c.toNat ∧ c.toNat ≤ 57 := by
  simpa [isDigitChar] using h

lemma digit_ne {c : Char} (h : isDigitChar c = true) {d : Char}
    (hd : ¬(48 ≤ d.toNat ∧ d.toNat ≤ 57)) : c ≠ d := by
  intro he
  exact hd (he ▸ digit_toNat h)

lemma digit_not_space {c : Char} (h : isDigitChar c = true) : isPySpace c = false := by
  have h2 := digit_toNat h
  simp only [isPySpace, decide_eq_false_iff_not]
  omega

lemma dropWhile_eq_self_of_all {α : Type} {p : α → Bool} {l : List α}
    (h : ∀ c ∈ l, p c = false) : l.dropWhile p = l := by
  induction l with
  | nil => rfl
  | cons c l ih =>
    rw [List.dropWhile_cons, if_neg (by simp [h c (List.mem_cons_self _ _)]),
      ]

lemma stripList_eq_self_of_all {l : List Char} (h : ∀ c ∈ l, isPySpace c = false) :
    stripList l = l := by
  rw [stripList, dropWhile_eq_self_of_all h, List.rdropWhile,
    dropWhile_eq_self_of_all (fun c hc => h c (List.mem_reverse.mp hc)), List.reverse_reverse]

lemma stripList_eq_self_edges {c0 : Char} {mid : List Char} {cl : Char}
    (h0 : isPySpace c0 = false) (hl : isPySpace cl = false) :
    stripList (c0 :: (mid ++ [cl])) = c0 :: (mid ++ [cl]) := by
  rw [stripList, List.dropWhile_cons, if_neg (by simp [h0]),
    show c0 :: (mid ++ [cl]) = (c0 :: mid) ++ [cl] from rfl,
    List.rdropWhile_concat_neg _ _ _ (by simp [hl])]

lemma replaceL_id {p : Char} {ps rep l : List Char} (h : ∀ c ∈ l, c ≠ p) :
    replaceL (p :: ps) rep l = l := by
  induction l with
  | nil => simp only [replaceL]
  | cons c rest ih =>
    rw [replaceL, if_neg]
    · rw [ih (fun x hx => h x (List.mem_cons_of_mem _ hx))]
    · simp only [List.isPrefixOf, Bool.and_eq_true, beq_iff_eq]
      intro hpre
      exact h c (List.mem_cons_self _ _) hpre.1.symm

lemma isPrefixOf_self (l : List Char) : l.isPrefixOf l = true := by
  induction l with
  | nil => rfl
  | cons c rest ih => simp [List.isPrefixOf, ih]

lemma replaceL_append_pat {p : Char} {ps l : List Char} (h : ∀ c ∈ l, c ≠ p) :
    replaceL (p :: ps) [] (l ++ p :: ps) = l := by
  induction l with
  | nil =>
    rw [List.nil_append, replaceL, if_pos (isPrefixOf_self _), List.nil_append,
      List.drop_length, replaceL]
  | cons c rest ih =>
    rw [List.cons_append, replaceL, if_neg]
    · rw [ih (fun x hx => h x (List.mem_cons_of_mem _ hx))]
    · simp only [List.isPrefixOf, Bool.and_eq_true, beq_iff_eq]
      intro hpre
      exact h c (List.mem_cons_self _ _) hpre.1.symm

lemma replaceL_del_middle {d : Char} {a b : List Char} (ha : ∀ c ∈ a, c ≠ d)
    (hb : ∀ c ∈ b, c ≠ d) : replaceL [d] [] (a ++ d :: b) = a ++ b := by
  induction a with
  | nil =>
    rw [List.nil_append, replaceL, if_pos (by simp [List.isPrefixOf]), List.nil_append,
      List.length_nil, List.drop_zero, replaceL_id hb]
    rfl
  | cons c rest ih =>
    rw [List.cons_append, replaceL, if_neg]
    · rw [ih (fun x hx => ha x (List.mem_cons_of_mem _ hx))]
      rfl
    · simp only [List.isPrefixOf, Bool.and_eq_true, beq_iff_eq]
      intro hpre
      exact ha c (List.mem_cons_self _ _) hpre.1.symm

lemma replaceL_single_map (d e : Char) (l : List Char) :
    replaceL [d] [e] l = l.map (fun c => if c = d then e else c) := by
  induction l with
  | nil => simp only [replaceL, List.map_nil]
  | cons c rest ih =>
    by_cases hc : c = d
    · subst hc
      rw [replaceL, if_pos (by simp [List.isPrefixOf]), List.length_nil, List.drop_zero,
        List.map_cons, if_pos rfl, ih]
      rfl
    · rw [replaceL, if_neg, List.map_cons, if_neg hc, ih]
      simp only [List.isPrefixOf, Bool.and_eq_true, beq_iff_eq]
      intro hpre
      exact hc hpre.1.symm

lemma takeWhile_digits_append {a : List Char} (hda : ∀ c ∈ a, isDigitChar c = true)
    (c : Char) (hc : isDigitChar c = false) (r : List Char) :
    (a ++ c :: r).takeWhile isDigitChar = a ∧
      (a ++ c :: r).dropWhile isDigitChar = c :: r := by
  induction a with
  | nil =>
    constructor
    · rw [List.nil_append, List.takeWhile_cons, if_neg (by simp [hc])]
    · rw [List.nil_append, List.dropWhile_cons, if_neg (by simp [hc])]
  | cons a0 a' ih =>
    obtain ⟨iht, ihd⟩ := ih (fun x hx => hda x (List.mem_cons_of_mem _ hx))
    have h0 := hda a0 (List.mem_cons_self _ _)
    constructor
    · rw [List.cons_append, List.takeWhile_cons, if_pos (by simp [h0]), iht]
    · rw [List.cons_append, List.dropWhile_cons, if_pos (by simp [h0]), ihd]

lemma takeWhile_digits_all {a : List Char} (hda : ∀ c ∈ a, isDigitChar c = true) :
    a.takeWhile isDigitChar = a ∧ a.dropWhile isDigitChar = [] := by
  induction a with
  | nil => exact ⟨rfl, rfl⟩
  | cons a0 a' ih =>
    obtain ⟨iht, ihd⟩ := ih (fun x hx => hda x (List.mem_cons_of_mem _ hx))
    have h0 := hda a0 (List.mem_cons_self _ _)
    constructor
    · rw [List.takeWhile_cons, if_pos (by simp [h0]), iht]
    · rw [List.dropWhile_cons, if_pos (by simp [h0]), ihd]

lemma pyFloatCore_int_frac {a b : List Char} (ha : a ≠ [])
    (hda : ∀ c ∈ a, isDigitChar c = true) (hdb : ∀ c ∈ b, isDigitChar c = true) :
    pyFloatCore (a ++ '.' :: b) =
      some ((digitsVal a : ℚ) + (digitsVal b : ℚ) / 10 ^ b.length) := by
  obtain ⟨htake, hdrop⟩ := takeWhile_digits_append hda '.' (by decide) b
  simp only [pyFloatCore]
  rw [htake, hdrop]
  show (if ('.' : Char) = '.' then _ else _) = _
  rw [if_pos rfl, (takeWhile_digits_all hdb).1, (takeWhile_digits_all hdb).2,
    if_neg (fun hand => ha hand.1)]
  rfl

lemma pyFloatCore_digits {a : List Char} (ha : a ≠ [])
    (hda : ∀ c ∈ a, isDigitChar c = true) :
    pyFloatCore a = some ((digitsVal a : ℚ)) := by
  simp only [pyFloatCore]
  rw [(takeWhile_digits_all hda).1, (takeWhile_digits_all hda).2]
  show (if a = [] then none else some ((digitsVal a : ℚ))) = _
  rw [if_neg ha]

lemma pyFloatOfString_digit_head {c0 : Char} {t : List Char} (h0 : isDigitChar c0 = true)
    (hst : stripList (c0 :: t) = c0 :: t) :
    pyFloatOfString (String.mk (c0 :: t)) = pyFloatCore (c0 :: t) := by
  simp only [pyFloatOfString, mk_data]
  rw [hst]
  show (if c0 = '+' then _ else if c0 = '-' then _ else pyFloatCore (c0 :: t)) = _
  rw [if_neg (digit_ne h0 (by decide)), if_neg (digit_ne h0 (by decide))]

lemma to_float_eq (l : List Char) (h : stripList l ≠ []) :
    to_float (some (String.mk l)) =
      (pyFloatOfString (String.mk (replaceL [','] ['.'] (replaceL [' '] []
        (replaceL ['P', 'L', 'N'] [] (replaceL ['G', 'B', 'P'] []
          (replaceL ['U', 'S', 'D'] [] (replaceL ['E', 'U', 'R'] []
            (stripList l))))))))).getD 0 := by
  simp only [to_float, pyStrip, pyReplace, mk_data]
  rw [if_neg h]

lemma map_comma_id {l : List Char} (hl : ∀ c ∈ l, isDigitChar c = true) :
    l.map (fun c => if c = ',' then '.' else c) = l := by
  induction l with
  | nil => rfl
  | cons c r ih =>
    rw [List.map_cons, if_neg (digit_ne (hl c (List.mem_cons_self _ _)) (by decide)),
      ih (fun x hx => hl x (List.mem_cons_of_mem _ hx))]

/-- Claim C9, amended.  `_to_float` is total; a decimal-comma numeral with a
trailing `EUR` suffix parses to its value, a space thousands separator is
dropped, plain non-numeric text and a missing value degrade to zero.  (A comma
is always read as a decimal separator, so comma-grouped thousands do not
parse; see the counterexample.) -/
theorem to_float_tolerant (a b : List Char) (ha : a ≠ []) (hb : b ≠ [])
    (hda : ∀ c ∈ a, isDigitChar c = true) (hdb : ∀ c ∈ b, isDigitChar c = true) :
    to_float (some (String.mk (a ++ ',' :: b ++ ['E', 'U', 'R']))) =
      (digitsVal a : ℚ) + (digitsVal b : ℚ) / 10 ^ b.length ∧
    to_float (some (String.mk (a ++ ' ' :: b))) = (digitsVal (a ++ b) : ℚ) ∧
    to_float (some "abc") = 0 ∧
    to_float none = 0 := by
  refine ⟨?_, ?_, ?_, rfl⟩
  · have hmem : ∀ (d : Char), ¬(48 ≤ d.toNat ∧ d.toNat ≤ 57) → d ≠ ',' →
        ∀ c ∈ a ++ ',' :: b, c ≠ d := by
      intro d hd hd2 c hc
      rcases List.mem_append.mp hc with h | h
      · exact digit_ne (hda c h) hd
      · rcases List.mem_cons.mp h with rfl | h
        · exact fun he => hd2 he.symm
        · exact digit_ne (hdb c h) hd
    have hstrip : stripList (a ++ ',' :: b ++ ['E', 'U', 'R']) =
        a ++ ',' :: b ++ ['E', 'U', 'R'] := by
      apply stripList_eq_self_of_all
      intro c hc
      rcases List.mem_append.mp hc with h | h
      · rcases List.mem_append.mp h with h | h
        · exact digit_not_space (hda c h)
        · rcases List.mem_cons.mp h with rfl | h
          · decide
          · exact digit_not_space (hdb c h)
      · rcases List.mem_cons.mp h with rfl | h
        · decide
        · rcases List.mem_cons.mp h with rfl | h
          · decide
          · rcases List.mem_singleton.mp h with rfl
            decide
    have hne : stripList (a ++ ',' :: b ++ ['E', 'U', 'R']) ≠ [] := by
      rw [hstrip]
      simp [ha]
    rw [to_float_eq _ hne, hstrip,
      replaceL_append_pat (hmem 'E' (by decide) (by decide)),
      replaceL_id (hmem 'U' (by decide) (by decide)),
      replaceL_id (hmem 'G' (by decide) (by decide)),
      replaceL_id (hmem 'P' (by decide) (by decide)),
      replaceL_id (hmem ' ' (by decide) (by decide)),
      replaceL_single_map]
    have hmap : (a ++ ',' :: b).map (fun c => if c = ',' then '.' else c) =
        a ++ '.' :: b := by
      rw [List.map_append, map_comma_id hda, List.map_cons, if_pos rfl, map_comma_id hdb]
    rw [hmap]
    obtain ⟨a0, a', rfl⟩ : ∃ a0 a', a = a0 :: a' := by
      cases a with
      | nil => exact absurd rfl ha
      | cons x y => exact ⟨x, y, rfl⟩
    have ha0 := hda a0 (List.mem_cons_self _ _)
    have hstrip2 : stripList (a0 :: (a' ++ '.' :: b)) = a0 :: (a' ++ '.' :: b) := by
      apply stripList_eq_self_of_all
      intro c hc
      rcases List.mem_cons.mp hc with rfl | h
      · exact digit_not_space ha0
      · rcases List.mem_append.mp h with h | h
        · exact digit_not_space (hda c (List.mem_cons_of_mem _ h))
        · rcases List.mem_cons.mp h with rfl | h
          · decide
          · exact digit_not_space (hdb c h)
    rw [show (a0 :: a') ++ '.' :: b = a0 :: (a' ++ '.' :: b) from rfl,
      pyFloatOfString_digit_head ha0 hstrip2,
      show a0 :: (a' ++ '.' :: b) = (a0 :: a') ++ '.' :: b from rfl,
      pyFloatCore_int_frac ha hda hdb, Option.getD_some]
  · have hmem2 : ∀ (d : Char), ¬(48 ≤ d.toNat ∧ d.toNat ≤ 57) → d ≠ ' ' →
        ∀ c ∈ a ++ ' ' :: b, c ≠ d := by
      intro d hd hd2 c hc
      rcases List.mem_append.mp hc with h | h
      · exact digit_ne (hda c h) hd
      · rcases List.mem_cons.mp h with rfl | h
        · exact fun he => hd2 he.symm
        · exact digit_ne (hdb c h) hd
    have hstrip : stripList (a ++ ' ' :: b) = a ++ ' ' :: b := by
      obtain ⟨a0, a', rfl⟩ : ∃ a0 a', a = a0 :: a' := by
        cases a with
        | nil => exact absurd rfl ha
        | cons x y => exact ⟨x, y, rfl⟩
      obtain ⟨b', bl, rfl⟩ : ∃ b' bl, b = b' ++ [bl] := by
        rcases List.eq_nil_or_concat b with h | ⟨L, x, h⟩
        · exact absurd h hb
        · exact ⟨L, x, by rw [h, List.concat_eq_append]⟩
      rw [show (a0 :: a') ++ ' ' :: (b' ++ [bl]) = a0 :: ((a' ++ ' ' :: b') ++ [bl])
          by simp,
        stripList_eq_self_edges (digit_not_space (hda a0 (List.mem_cons_self _ _)))
          (digit_not_space (hdb bl (by simp)))]
    have hne : stripList (a ++ ' ' :: b) ≠ [] := by
      rw [hstrip]
      simp [ha]
    rw [to_float_eq _ hne, hstrip,
      replaceL_id (hmem2 'E' (by decide) (by decide)),
      replaceL_id (hmem2 'U' (by decide) (by decide)),
      replaceL_id (hmem2 'G' (by decide) (by decide)),
      replaceL_id (hmem2 'P' (by decide) (by decide)),
      replaceL_del_middle (fun c hc => digit_ne (hda c hc) (by decide))
        (fun c hc => digit_ne (hdb c hc) (by decide)),
      replaceL_single_map,
      map_comma_id (fun c hc => by
        rcases List.mem_append.mp hc with h | h
        · exact hda c h
        · exact hdb c h)]
    obtain ⟨a0, a', rfl⟩ : ∃ a0 a', a = a0 :: a' := by
      cases a with
      | nil => exact absurd rfl ha
      | cons x y => exact ⟨x, y, rfl⟩
    have ha0 := hda a0 (List.mem_cons_self _ _)
    have hstrip3 : stripList (a0 :: (a' ++ b)) = a0 :: (a' ++ b) := by
      apply stripList_eq_self_of_all
      intro c hc
      rcases List.mem_cons.mp hc with rfl | h
      · exact digit_not_space ha0
      · rcases List.mem_append.mp h with h | h
        · exact digit_not_space (hda c (List.mem_cons_of_mem _ h))
        · exact digit_not_space (hdb c h)
    rw [show (a0 :: a') ++ b = a0 :: (a' ++ b) from rfl,
      pyFloatOfString_digit_head ha0 hstrip3,
      show a0 :: (a' ++ b) = (a0 :: a') ++ b from rfl,
      pyFloatCore_digits (by simp) (fun c hc => by
        rcases List.mem_append.mp hc with h | h
        · exact hda c h
        · exact hdb c h),
      Option.getD_some]
  · have h0 : to_float (some "abc") = to_float (some (String.mk ['a', 'b', 'c'])) := rfl
    rw [h0, to_float_eq _ (by decide),
      show stripList ['a', 'b', 'c'] = ['a', 'b', 'c'] from rfl,
      replaceL_id (l := ['a', 'b', 'c']) (by decide),
      replaceL_id (l := ['a', 'b', 'c']) (by decide),
      replaceL_id (l := ['a', 'b', 'c']) (by decide),
      replaceL_id (l := ['a', 'b', 'c']) (by decide),
      replaceL_id (l := ['a', 'b', 'c']) (by decide),
      replaceL_single_map]
    decide

theorem to_float_tolerant_witness :
    to_float (some (String.mk (['1'] ++ ',' :: ['5'] ++ ['E', 'U', 'R']))) =
      (digitsVal ['1'] : ℚ) + (digitsVal ['5'] : ℚ) / 10 ^ (['5'] : List Char).length ∧
    to_float (some (String.mk (['1'] ++ ' ' :: ['5']))) =
      (digitsVal (['1'] ++ ['5']) : ℚ) ∧
    to_float (some "abc") = 0 ∧
    to_float none = 0 :=
  to_float_tolerant ['1'] ['5'] (by decide) (by decide) (by decide) (by decide)

/-- Counterexample to claim C9 as stated: a numeral written with a comma
thousands separator and a decimal point represents 1234.56, yet the parser
turns the comma into a second decimal point and degrades to zero. -/
theorem to_float_thousands_cex :
    to_float (some "1,234.56") = 0 ∧ (123456 / 100 : ℚ) ≠ 0 := by
  constructor
  · have h0 : to_float (some "1,234.56") =
        to_float (some (String.mk ['1', ',', '2', '3', '4', '.', '5', '6'])) := rfl
    rw [h0, to_float_eq _ (by decide),
      show stripList ['1', ',', '2', '3', '4', '.', '5', '6'] =
        ['1', ',', '2', '3', '4', '.', '5', '6'] from rfl,
      replaceL_id (l := ['1', ',', '2', '3', '4', '.', '5', '6']) (by decide),
      replaceL_id (l := ['1', ',', '2', '3', '4', '.', '5', '6']) (by decide),
      replaceL_id (l := ['1', ',', '2', '3', '4', '.', '5', '6']) (by decide),
      replaceL_id (l := ['1', ',', '2', '3', '4', '.', '5', '6']) (by decide),
      replaceL_id (l := ['1', ',', '2', '3', '4', '.', '5', '6']) (by decide),
      replaceL_single_map]
    decide
  · norm_num

/-! ## Suffix-probing quote fetcher -/

lemma firstUsableClose_eq_none (env : String → Option ℚ) (l : List String) :
    firstUsableClose env l = none ↔ ∀ c ∈ l, env c = none := by
  induction l with
  | nil => simp [firstUsableClose]
  | cons c rest ih =>
    rw [firstUsableClose]
    cases he : env c with
    | some p => simp [List.forall_mem_cons, he]
    | none => simp [List.forall_mem_cons, he, ih]

lemma stooq_lookup_aux (env : String → Option ℚ) (symbols : List String) :
    ∀ (acc : List (String × SQuote)) (s : String),
      (lookupAssoc (symbols.foldl (stooqStep env) acc) s).isSome ↔
        (lookupAssoc acc s).isSome ∨ s ∈ symbols := by
  induction symbols with
  | nil => intro acc s; simp
  | cons sym rest ih =>
    intro acc s
    rw [List.foldl_cons, ih]
    simp only [stooqStep, lookupAssoc_updateAssoc]
    by_cases he : sym = s
    · simp [he]
    · have hne : ¬s = sym := fun h => he h.symm
      simp [he, List.mem_cons, hne]

lemma stooq_entries_aux (env : String → Option ℚ) (symbols : List String) :
    ∀ acc : List (String × SQuote),
      (∀ e ∈ acc, e.2.currency = none ∧
        (e.2.price = none ↔ ∀ c ∈ stooq_symbols e.1, env c = none)) →
      ∀ e ∈ symbols.foldl (stooqStep env) acc, e.2.currency = none ∧
        (e.2.price = none ↔ ∀ c ∈ stooq_symbols e.1, env c = none) := by
  induction symbols with
  | nil => intro acc h; exact h
  | cons sym rest ih =>
    intro acc h
    rw [List.foldl_cons]
    apply ih
    intro e he
    rcases mem_updateAssoc he with h1 | h1
    · exact h e h1
    · subst h1
      refine ⟨rfl, ?_⟩
      show (firstUsableClose env (stooq_symbols sym)).map Prod.fst = none ↔ _
      rw [Option.map_eq_none']
      exact firstUsableClose_eq_none env _

/-- Claim C10.  The suffix-probing quote fetcher returns an entry for exactly
the requested symbols; it never supplies a currency; and a returned price is
absent precisely when no probed candidate yields a usable closing price. -/
theorem stooq_quotes_shape (env : String → Option ℚ) (symbols : List String) :
    (∀ s, (lookupAssoc (stooq_get_quotes env symbols) s).isSome ↔ s ∈ symbols) ∧
    (∀ e ∈ stooq_get_quotes env symbols, e.2.currency = none ∧
      (e.2.price = none ↔ ∀ c ∈ stooq_symbols e.1, env c = none)) := by
  constructor
  · intro s
    rw [stooq_get_quotes, stooq_lookup_aux]
    simp [lookupAssoc]
  · exact stooq_entries_aux env symbols [] (by simp)

end InvestmentTracker
